import Mathlib

/-!
# Verification of the i3d-mapper node-addressing tool

Shallow embedding of `src/i3d_mapper.py` (an XML rewriting tool for game
mod packages) together with proofs about the embedded definitions.

The embedding covers:
* the scene-tree depth-first traversal `depth_iter` (lines 90-100),
* the mapping core `generate_i3d_mapping` (lines 130-201): name
  deduplication, the component counter and the sibling-count vector,
  and `node_maker` (lines 83-87),
* the reference rewriter and memory-tag removal inside `process_xml`
  (lines 254-311), with `is_numeric_node` (lines 62-64),
* the per-file control flow of `process_xml` (lines 207-336) and the
  batch loop of `process_moddesc` (lines 361-378), with file-system and
  parser outcomes abstracted into an environment record.

Machine strings are Lean `String`s; Python dicts become association
lists; Python's in-place mutation becomes explicit state passing.
-/

namespace I3d

/-! ## Configuration constants (lines 11-29 of the source) -/

/-- The fixed reference-attribute vocabulary `NODE_TYPES` (lines 11-17). -/
def NODE_TYPES : List String :=
  ["node", "repr", "startNode", "endNode", "linkNode", "jointNode", "shaderNode",
   "rotateNode", "referencePoint", "referenceFrame", "index", "effectNode",
   "attachReferenceNode", "lightShaderNode", "driveNode", "realLightNode",
   "targetNode", "baseNode", "playerTriggerNode", "vehicleTriggerNode",
   "visibilityNode", "triggerNode", "activeNode", "inactiveNode", "numbers"]

/-- The fixed obsolete memory-usage tag list `MEMORY_TAGS` (lines 22-29). -/
def MEMORY_TAGS : List String :=
  ["vertexBufferMemoryUsage",
   "indexBufferMemoryUsage",
   "textureMemoryUsage",
   "audioMemoryUsage",
   "instanceVertexBufferMemoryUsage",
   "instanceIndexBufferMemoryUsage"]

/-! ## Utility functions (lines 62-87) -/

/-- `is_numeric_node` (lines 62-64): `re.fullmatch(r"\d>[0-9|]*", value)`.
The regex demands exactly ONE digit, then `>`, then any number of
characters from `[0-9|]`.  (Python's `\d` also accepts non-ASCII decimal
digits; every address built by `node_maker` is ASCII, and all inputs
considered here are ASCII, where `Char.isDigit` agrees with `\d`.) -/
def is_numeric_node (value : String) : Bool :=
  match value.data with
  | c :: '>' :: rest => c.isDigit && rest.all (fun ch => ch.isDigit || ch == '|')
  | _ => false

/-- `node_maker` (lines 83-87): `f"{component}>"`, optionally followed by
`"|".join(str(i) for i in depth_list)`. -/
def node_maker (component : Int) (depth_list : Option (List Nat)) : String :=
  let this_node := toString component ++ ">"
  match depth_list with
  | none => this_node
  | some l => this_node ++ String.intercalate "|" (l.map (fun i => toString i))

/-- Python's `f"{c:0>3}"`: the decimal form of `c`, left-padded with `'0'`
to width 3 (used at line 157 for duplicate-name suffixes). -/
def pad3 (n : Nat) : String :=
  let s := Nat.repr n
  if s.length < 3 then String.mk (List.replicate (3 - s.length) '0' ++ s.data) else s

/-! ## The scene tree and `depth_iter` (lines 90-100)

`generate_i3d_mapping` reads only the `name` attribute of each element of
the `<Scene>` subtree, so a scene node is modelled by its (optional) name
attribute and its ordered children.  An absent attribute is `none`; an
attribute may also be the empty string (falsy in Python, like `None`). -/

inductive SNode where
  | mk (name : Option String) (children : List SNode)
deriving Repr

def SNode.name : SNode → Option String
  | .mk n _ => n

def SNode.children : SNode → List SNode
  | .mk _ cs => cs

/-- One `(element, depth)` pair yielded by `depth_iter`; only the name
attribute of the element is relevant downstream. -/
structure Visit where
  name : Option String
  depth : Nat
deriving Repr, DecidableEq

/- `depth_iter(scene)` (lines 90-100) performs a preorder depth-first
traversal; the stack discipline yields the argument element at depth 1
(after `stack.append(iter(e))` the stack has two entries) and each child
one level deeper.  `visitsFrom d t` is the list of yields for the subtree
`t` whose root is yielded at depth `d`; `depth_iter(scene)` is
`visitsFrom 1 scene`. -/
mutual
def visitsFrom (d : Nat) : SNode → List Visit
  | .mk name cs => ⟨name, d⟩ :: visitsForest (d + 1) cs
def visitsForest (d : Nat) : List SNode → List Visit
  | [] => []
  | t :: ts => visitsFrom d t ++ visitsForest d ts
end

/-- All `(element, depth)` pairs yielded by `depth_iter(this_scene)` in
`generate_i3d_mapping` (line 149): the `<Scene>` element itself arrives at
depth 1. -/
def visits (scene : SNode) : List Visit := visitsFrom 1 scene

/-! ## The mapping core `generate_i3d_mapping` (lines 143-186)

The loop state consists of `print_names`, `last_depth`, `count_depth`,
`current_component` (initially `-1`), the caller-supplied `unique_names`
dict and `renamed_nodes`. -/

/-- Python truthiness of an optional string: `None` and `""` are falsy. -/
def truthy : Option String → Bool
  | none => false
  | some s => s != ""

/-- Lookup in the `unique_names` dict (association list model). -/
def lookupName : List (String × Nat) → String → Option Nat
  | [], _ => none
  | (k, v) :: rest, n => if k == n then some v else lookupName rest n

/-- Store a binding in the `unique_names` dict: replace the existing
binding for the key, else append. -/
def setName : List (String × Nat) → String → Nat → List (String × Nat)
  | [], n, c => [(n, c)]
  | (k, v) :: rest, n, c => if k == n then (n, c) :: rest else (k, v) :: setName rest n c

/-- The name-deduplication step (lines 153-161): for `depth > 1` and a
truthy name, a first occurrence is recorded with count 1 and kept; a
repeat occurrence bumps the count to `c+1` and renames the node to
`f"{name}_{c+1:0>3}"`, recording the rename. Returns the updated dict,
the effective name (`this_node_name` after the block) and the recorded
rename, if any. -/
def dedupStep (un : List (String × Nat)) (name : Option String) (depth : Nat) :
    List (String × Nat) × Option String × Option (String × String) :=
  if 1 < depth && truthy name then
    match name with
    | some n =>
      match lookupName un n with
      | some c =>
        let c1 := c + 1
        let newName := n ++ "_" ++ pad3 c1
        (setName un n c1, some newName, some (n, newName))
      | none => (setName un n 1, some n, none)
    | none => (un, name, none)
  else (un, name, none)

/-- The positional-addressing bookkeeping state: `current_component`,
`count_depth` and `last_depth` (lines 144-146). -/
structure BK where
  current_component : Int
  count_depth : List Nat
  last_depth : Nat
deriving Repr, DecidableEq

/-- `for _ in range(k): if count_depth: count_depth.pop()` (lines
178-180): pop from the end, guarded against the empty list. -/
def popN : List Nat → Nat → List Nat
  | l, 0 => l
  | l, k + 1 => popN (if l.isEmpty then l else l.dropLast) k

/-- `count_depth[i] += 1`.  (In the source this runs under
`if count_depth:` at lines 181-182 and, for the in-range indices proven
below, Python's index assignment agrees with `List.set`.) -/
def incAt (l : List Nat) (i : Nat) : List Nat :=
  l.set i (l.getD i 0 + 1)

/-- The depth bookkeeping of one loop iteration (lines 163-183):
  * `depth == 2`: new component — increment the counter, reset the
    vector and `last_depth`;
  * `depth > 2`: with `last_map_index = depth - 2`, either extend the
    vector with zeros (deeper than before) or pop back down and bump the
    counter at the current slot;
  * shallower depths leave the state alone. -/
def bkStep (bk : BK) (depth : Nat) : BK :=
  if depth == 2 then
    { current_component := bk.current_component + 1, count_depth := [], last_depth := 0 }
  else if 2 < depth then
    let last_map_index := depth - 2
    let cd :=
      if bk.last_depth < last_map_index then
        bk.count_depth ++ List.replicate (last_map_index - bk.last_depth) 0
      else
        let popped := popN bk.count_depth (bk.last_depth - last_map_index)
        if popped.isEmpty then popped else incAt popped (last_map_index - 1)
    { current_component := bk.current_component, count_depth := cd,
      last_depth := last_map_index }
  else bk

/-- The structured form of the `node_path` computed for one visit from
the *updated* bookkeeping state: at depth 2 the source calls
`node_maker(current_component)`, deeper it calls
`node_maker(current_component, count_depth)` (lines 168, 184); at depth
≤ 1 no path is computed. -/
def pairAt (bk : BK) (depth : Nat) : Option (Int × Option (List Nat)) :=
  if depth == 2 then some (bk.current_component, none)
  else if 2 < depth then some (bk.current_component, some bk.count_depth)
  else none

/-- Rendering of a structured address through `node_maker`. -/
def encodePair : Int × Option (List Nat) → String
  | (c, o) => node_maker c o

/-- The full loop state of `generate_i3d_mapping`. -/
structure MapState where
  print_names : List (String × String)
  last_depth : Nat
  count_depth : List Nat
  current_component : Int
  unique_names : List (String × Nat)
  renamed_nodes : List (String × String)
deriving Repr

/-- The bookkeeping projection of the loop state. -/
def MapState.bk (st : MapState) : BK :=
  ⟨st.current_component, st.count_depth, st.last_depth⟩

/-- Per-visit outputs: the effective (post-dedup) name and the structured
address computed for the visit, if any. -/
structure Record where
  effName : Option String
  pair : Option (Int × Option (List Nat))
deriving Repr, DecidableEq

/-- One iteration of the `for xml_entry, depth in depth_iter(this_scene)`
loop (lines 149-186): dedup first, then the depth bookkeeping; a truthy
named node at depth ≥ 2 appends `[this_node_name, node_path]` to
`print_names`. -/
def mapStep (st : MapState) (v : Visit) : MapState × Record :=
  let d := dedupStep st.unique_names v.name v.depth
  let un := d.1
  let name1 := d.2.1
  let ren := d.2.2
  let bk1 := bkStep st.bk v.depth
  let p := pairAt bk1 v.depth
  let pn :=
    match p with
    | some pr => if truthy name1 then st.print_names ++ [(name1.getD "", encodePair pr)]
                 else st.print_names
    | none => st.print_names
  ({ print_names := pn, last_depth := bk1.last_depth, count_depth := bk1.count_depth,
     current_component := bk1.current_component, unique_names := un,
     renamed_nodes := st.renamed_nodes ++ (match ren with | some r => [r] | none => []) },
   { effName := name1, pair := p })

/-- Run the loop over a list of visits, collecting the per-visit records. -/
def runSteps (st : MapState) : List Visit → MapState × List Record
  | [] => (st, [])
  | v :: vs =>
    let s1 := mapStep st v
    let s2 := runSteps s1.1 vs
    (s2.1, s1.2 :: s2.2)

/-- The initial loop state (lines 143-147) with the fresh `unique_names`
dict that `process_xml` supplies (line 247). -/
def initState : MapState :=
  { print_names := [], last_depth := 0, count_depth := [],
    current_component := -1, unique_names := [], renamed_nodes := [] }

/-- The mapping pass of `generate_i3d_mapping` over a scene tree: the
final state (carrying `print_names` and `renamed_nodes`) plus the
per-visit records. -/
def generate (scene : SNode) : MapState × List Record :=
  runSteps initState (visits scene)

/-! ## The configuration tree and the reference rewriter (lines 254-311)

The vehicle/configuration XML document: each element has a tag, an
attribute dict (association list — ElementTree attribute dicts have
pairwise-distinct keys), optional text and ordered children. -/

inductive XElem where
  | mk (tag : String) (attrs : List (String × String)) (children : List XElem)
deriving Repr, BEq

def XElem.tag : XElem → String
  | .mk t _ _ => t

def XElem.attrs : XElem → List (String × String)
  | .mk _ a _ => a

def XElem.children : XElem → List XElem
  | .mk _ _ cs => cs

/-- `tag.attrib.get(key)`: first binding for the key. -/
def getAttr : List (String × String) → String → Option String
  | [], _ => none
  | (k, v) :: rest, key => if k == key then some v else getAttr rest key

/-- `tag.attrib[key] = value` on an existing key: replace in place. -/
def setAttr : List (String × String) → String → String → List (String × String)
  | [], _, _ => []
  | (k, v) :: rest, key, val => if k == key then (k, val) :: rest else (k, v) :: setAttr rest key val

/-- Lookup in the `map_cache` dict (address → id, line 258). -/
def lookupStr : List (String × String) → String → Option String
  | [], _ => none
  | (k, v) :: rest, key => if k == key then some v else lookupStr rest key

/-- `map_cache[node] = id` with last-write-wins dict semantics. -/
def cacheInsert : List (String × String) → String → String → List (String × String)
  | [], key, val => [(key, val)]
  | (k, v) :: rest, key, val =>
    if k == key then (k, val) :: rest else (k, v) :: cacheInsert rest key val

/-- The `map_cache` built from the generated mapping entries (lines
254-258; the source serialises `print_names` to an `<i3dMappings>` block
and re-parses it, which yields exactly the `(node, id)` pairs of
`print_names`, inserted in order). -/
def buildCache (print_names : List (String × String)) : List (String × String) :=
  print_names.foldl (fun acc nm_nd => cacheInsert acc nm_nd.2 nm_nd.1) []

/-- The body of the rewrite loop (lines 264-268) for one element and one
attribute name `ty`: if the element's tag is not `i3dMapping`, the
attribute is present, truthy, matches `is_numeric_node` and is a key of
`map_cache`, replace it with the looked-up id and count 1. -/
def rewriteHere (cache : List (String × String)) (ty : String) (tag : String)
    (attrs : List (String × String)) : List (String × String) × Nat :=
  if tag != "i3dMapping" then
    match getAttr attrs ty with
    | some v =>
      if v != "" && is_numeric_node v then
        match lookupStr cache v with
        | some nm => (setAttr attrs ty nm, 1)
        | none => (attrs, 0)
      else (attrs, 0)
    | none => (attrs, 0)
  else (attrs, 0)

/- One pass `for tag in shop_xml.findall(".//*[@ty]")` (lines 263-268):
`.//*` visits every element strictly below the root, in document order
(the order does not affect the resulting tree or count, since each
element's attributes are rewritten independently). `passElem` handles an
element and its descendants; `passList` a forest. -/
mutual
def passElem (cache : List (String × String)) (ty : String) : XElem → XElem × Nat
  | .mk tag attrs cs =>
    let here := rewriteHere cache ty tag attrs
    let below := passList cache ty cs
    (.mk tag here.1 below.1, here.2 + below.2)
def passList (cache : List (String × String)) (ty : String) : List XElem → List XElem × Nat
  | [] => ([], 0)
  | c :: rest =>
    let r1 := passElem cache ty c
    let r2 := passList cache ty rest
    (r1.1 :: r2.1, r1.2 + r2.2)
end

/-- The full replacement phase (lines 261-268): `replaced_count = 0`,
then one pass per entry of `NODE_TYPES`, accumulating the count.  The
root element itself is never visited (`.//*` matches descendants only). -/
def rewriteAll (cache : List (String × String)) (root : XElem) : XElem × Nat :=
  NODE_TYPES.foldl
    (fun acc ty =>
      match acc.1 with
      | .mk tag attrs cs =>
        let r := passList cache ty cs
        (.mk tag attrs r.1, acc.2 + r.2))
    (root, 0)

/-! ## Memory-usage tag removal (lines 297-311)

For each `tag_name` in `MEMORY_TAGS` the source collects
`shop_xml.findall(f".//{tag_name}")` (all matching elements strictly
below the root, in document order) and removes each from its parent,
counting; an element whose ancestor was already removed is no longer
found by the linear parent scan over the live tree and is skipped
(removed together with its ancestor, but not counted).  Since document
order lists ancestors before descendants, the pass is equivalent to a
single top-down prune: every child with the tag is dropped (counted
once, subtree and all), other elements recurse. -/

mutual
def pruneElem (tg : String) : XElem → XElem × Nat
  | .mk tag attrs cs =>
    let r := pruneList tg cs
    (.mk tag attrs r.1, r.2)
def pruneList (tg : String) : List XElem → List XElem × Nat
  | [] => ([], 0)
  | c :: rest =>
    let r2 := pruneList tg rest
    if c.tag == tg then (r2.1, r2.2 + 1)
    else
      let r1 := pruneElem tg c
      (r1.1 :: r2.1, r1.2 + r2.2)
end

/-- The whole memory-tag phase (lines 297-306): one prune pass per entry
of `MEMORY_TAGS`, accumulating `removed_memory_tags`. -/
def removeMemoryTags (root : XElem) : XElem × Nat :=
  MEMORY_TAGS.foldl
    (fun acc tg =>
      let r := pruneElem tg acc.1
      (r.1, acc.2 + r.2))
    (root, 0)

/- The element together with all its descendants. -/
mutual
def subElems : XElem → List XElem
  | .mk tag attrs cs => .mk tag attrs cs :: subForest cs
def subForest : List XElem → List XElem
  | [] => []
  | c :: rest => subElems c ++ subForest rest
end

/-- The strict descendants of an element (what `.//` can reach). -/
def strictDesc (e : XElem) : List XElem := subForest e.children

/-! ## Per-file control flow of `process_xml` (lines 207-336)

`process_xml` is pure decision logic around file-system and parser
calls; the outcomes of those external calls are collected in a
`FileEnv`, and the observable behaviour is the ordered list of effects
(log lines and file writes).  The whole body runs inside
`try ... except Exception` (lines 208, 335-336): an exception raised at
any point discards the rest of the body and appends one error log. -/

inductive Eff where
  | log (msg : String)
  | writeI3d
  | writeXml
deriving Repr, DecidableEq

/-- Python's `str.strip()` (line 230): drop leading and trailing
whitespace.  (Restricted to the ASCII whitespace characters; none of the
claims involve non-ASCII whitespace.) -/
def isPyWs (c : Char) : Bool :=
  c == ' ' || c == '\t' || c == '\n' || c == '\r' || c == '\x0b' || c == '\x0c'

def pyStrip (s : String) : String :=
  String.mk (((s.data.dropWhile isPyWs).reverse.dropWhile isPyWs).reverse)

/-- Outcomes of the external calls made while processing one
configuration file. -/
structure FileEnv where
  /-- `os.path.isfile(xml_path)` (line 215). -/
  xml_isfile : Bool
  /-- whether `ET.fromstring(xml_content)` succeeds (line 222); on
  failure the raised exception is caught by the outer handler. -/
  parse_ok : Bool
  /-- the text of the first `.//base/filename` element, `none` when the
  element is absent or has no text (line 225-226). -/
  filename_text : Option String
  /-- `os.path.isfile(i3d_path)` (line 241). -/
  i3d_isfile : Bool
  /-- whether `generate_i3d_mapping` returns a mapping (line 248-252):
  false when the i3d text fails to parse or has no `<Scene>` node, in
  which case `generate_i3d_mapping` logs the error itself and
  `process_xml` returns. -/
  mapping_ok : Bool
  /-- an exception raised later in the body (serialisation or file I/O,
  lines 313-331), positioned before the i3d write; `none` when the tail
  of the body succeeds. -/
  late_error : Option String
deriving Repr

/-- The `try` body of `process_xml`: the effects emitted so far plus the
message of the uncaught exception, if one is raised. -/
def processBody (env : FileEnv) : List Eff × Option String :=
  let hdr := [Eff.log "Processing XML"]
  if !env.xml_isfile then (hdr ++ [Eff.log "XML file not found"], none)
  else if !env.parse_ok then (hdr, some "xml parse error")
  else
    match env.filename_text with
    | none => (hdr ++ [Eff.log "base/filename tag missing or empty. Skipping."], none)
    | some s =>
      if pyStrip s == "" then
        (hdr ++ [Eff.log "base/filename tag missing or empty. Skipping."], none)
      else
        let i3d_filename := pyStrip s
        if "$data".data.isPrefixOf i3d_filename.data then
          (hdr ++ [Eff.log "i3d file is in $data. Skipping."], none)
        else
          let hdr2 := hdr ++ [Eff.log "i3d path resolved"]
          if !env.i3d_isfile then (hdr2 ++ [Eff.log ".i3d file not found"], none)
          else if !env.mapping_ok then (hdr2 ++ [Eff.log "[ERROR] in generate_i3d_mapping"], none)
          else
            let hdr3 := hdr2 ++ [Eff.log "Replaced numeric node references",
                                 Eff.log "memory usage tags"]
            match env.late_error with
            | some _ => (hdr3, some "late failure")
            | none =>
              (hdr3 ++ [Eff.writeI3d, Eff.log "Updated i3d file written",
                        Eff.writeXml, Eff.log "Updated XML file written",
                        Eff.log "Success."], none)

/-- `process_xml` (lines 207-336): the `try` body with the
`except Exception` handler (lines 335-336) converting any raised
exception into a final error log line. -/
def process_xml (env : FileEnv) : List Eff :=
  match processBody env with
  | (effs, none) => effs
  | (effs, some _) => effs ++ [Eff.log "ERROR while processing"]

/-- One `<storeItem>` entry of `modDesc.xml` as `process_moddesc` sees
it: the optional `xmlFilename` attribute, the result of the
`os.path.isfile(xml_path)` check (line 374), and the environment of the
ensuing `process_xml` call. -/
structure StoreItem where
  xmlFilename : Option String
  item_isfile : Bool
  env : FileEnv

/-- The effects contributed by one store item in the loop of
`process_moddesc` (lines 368-378): a falsy `xmlFilename` is skipped
silently, a missing file logs and continues, otherwise `process_xml`
runs. -/
def itemEffects (it : StoreItem) : List Eff :=
  match it.xmlFilename with
  | none => []
  | some fn =>
    if fn == "" then []
    else if !it.item_isfile then [Eff.log "Vehicle XML not found"]
    else process_xml it.env

/-- The batch loop of `process_moddesc` (lines 368-378) over the
discovered store items. -/
def process_moddesc (items : List StoreItem) : List Eff :=
  items.foldl (fun acc it => acc ++ itemEffects it) []

/-! ## The spec-side NodeAddress pattern

`spec_numeric_pattern` follows the specification's words for the
Reference Rewriter match test — `^\d+>[0-9|]*$`, "one or more digits,
the addressing separator, then zero or more digits/pipe characters" —
to be compared against the source's `is_numeric_node`. -/
def spec_numeric_pattern (v : String) : Bool :=
  let ds := v.data.takeWhile Char.isDigit
  !ds.isEmpty &&
    match v.data.drop ds.length with
    | '>' :: rest => rest.all (fun ch => ch.isDigit || ch == '|')
    | _ => false

/-! ## Spec-side description of the rewrite phase

A per-element, per-attribute description of the replacement phase, used
to state the corrected form of the "replace iff" contract: an attribute
entry is rewritten exactly when its key is in `tys`, the element's tag
is not `i3dMapping`, and its value is truthy, matches `is_numeric_node`
and is a key of the cache. -/

/-- The value-side conditions of the rewrite (lines 264-266): the
element is not a mapping entry, the attribute value is truthy, matches
`is_numeric_node` and is a key of the cache. -/
def valueOk (cache : List (String × String)) (tag : String) (kv : String × String) : Bool :=
  tag != "i3dMapping" && kv.2 != "" && is_numeric_node kv.2 && (lookupStr cache kv.2).isSome

def rewriteGuard (cache : List (String × String)) (tys : List String) (tag : String)
    (kv : String × String) : Bool :=
  tys.contains kv.1 && valueOk cache tag kv

def attrSpec (cache : List (String × String)) (tys : List String) (tag : String)
    (kv : String × String) : String × String :=
  if rewriteGuard cache tys tag kv then (kv.1, (lookupStr cache kv.2).getD kv.2) else kv

mutual
def specElem (cache : List (String × String)) (tys : List String) : XElem → XElem
  | .mk tag attrs cs => .mk tag (attrs.map (attrSpec cache tys tag)) (specList cache tys cs)
def specList (cache : List (String × String)) (tys : List String) : List XElem → List XElem
  | [] => []
  | c :: rest => specElem cache tys c :: specList cache tys rest
end

mutual
def specCountElem (cache : List (String × String)) (tys : List String) : XElem → Nat
  | .mk tag attrs cs => attrs.countP (rewriteGuard cache tys tag) + specCountList cache tys cs
def specCountList (cache : List (String × String)) (tys : List String) : List XElem → Nat
  | [] => 0
  | c :: rest => specCountElem cache tys c + specCountList cache tys rest
end

/-- Well-formedness inherited from ElementTree: every attribute dict has
pairwise-distinct keys. -/
def WfAttrs (root : XElem) : Prop :=
  ∀ e ∈ subElems root, (e.attrs.map Prod.fst).Nodup

/-! ## Infrastructure for the addressing invariants

`Adm p ds` says a depth list `ds` can follow a visit at depth `p` in the
traversal of a scene subtree strictly below the `<Scene>` root: every
depth is at least 2 and each step goes at most one level deeper than its
predecessor. -/

inductive Adm : Nat → List Nat → Prop where
  | nil {p : Nat} : Adm p []
  | cons {p d : Nat} {ds : List Nat} : 2 ≤ d → d ≤ p + 1 → Adm d ds → Adm p (d :: ds)

/-- The bookkeeping invariant between visits: the sibling-count vector
has exactly `last_depth` entries, `last_depth` matches the previously
visited depth `p` (as `p - 2`, clamped), the component counter never
drops below `-1` and is non-negative once a component has been entered. -/
def InvBK (bk : BK) (p : Nat) : Prop :=
  bk.count_depth.length = bk.last_depth ∧ bk.last_depth + 2 = max p 2 ∧
    -1 ≤ bk.current_component ∧ (2 ≤ p → 0 ≤ bk.current_component)

/-- Iterated bookkeeping over a depth list. -/
def bkRun (bk : BK) (ds : List Nat) : BK := ds.foldl bkStep bk

/-- The structured addresses computed along a depth list (with the output
option of `pairAt` resolved: for depths ≥ 2 `pairAt` is `some` of this). -/
def pairAtS (bk : BK) (depth : Nat) : Int × Option (List Nat) :=
  (bk.current_component, if depth == 2 then none else some bk.count_depth)

def bkPairs (bk : BK) : List Nat → List (Option (Int × Option (List Nat)))
  | [] => []
  | d :: ds => pairAt (bkStep bk d) d :: bkPairs (bkStep bk d) ds

def bkPairsS (bk : BK) : List Nat → List (Int × Option (List Nat))
  | [] => []
  | d :: ds => pairAtS (bkStep bk d) d :: bkPairsS (bkStep bk d) ds

/-- The structured form of the most recently emitted address, read off
the bookkeeping state. -/
def prevPair (bk : BK) : Int × Option (List Nat) :=
  (bk.current_component, if bk.count_depth.isEmpty then none else some bk.count_depth)

/-- Strict lexicographic order on sibling-count vectors, a proper prefix
preceding its extensions (the order in which depth-first traversal emits
them). -/
inductive vecLt : List Nat → List Nat → Prop where
  | nil {a : Nat} {l : List Nat} : vecLt [] (a :: l)
  | head {a b : Nat} {l1 l2 : List Nat} : a < b → vecLt (a :: l1) (b :: l2)
  | tail {a : Nat} {l1 l2 : List Nat} : vecLt l1 l2 → vecLt (a :: l1) (a :: l2)

def optVecLt : Option (List Nat) → Option (List Nat) → Prop
  | none, some _ => True
  | some l1, some l2 => vecLt l1 l2
  | _, _ => False

/-- Strict order on structured addresses: by component, then by vector
(a component's own address preceding those of its descendants). -/
def pairLt (p q : Int × Option (List Nat)) : Prop :=
  p.1 < q.1 ∨ (p.1 = q.1 ∧ optVecLt p.2 q.2)

/-- A structured address is well-formed when its component is
non-negative and its vector, if present, is non-empty. -/
def wfPair (p : Int × Option (List Nat)) : Prop :=
  0 ≤ p.1 ∧ (p.2 = none ∨ ∃ l, p.2 = some l ∧ l ≠ [])

/-! ## Decimal-representation helpers

`Nat.repr` (used by `node_maker` through `toString`) unfolded into a
structurally recursive digit list, to reason about address strings. -/

def digitsOf (n : Nat) : List Char :=
  if h : n < 10 then [Nat.digitChar n]
  else
    have : n / 10 < n := Nat.div_lt_self (by omega) (by omega)
    digitsOf (n / 10) ++ [Nat.digitChar (n % 10)]

def chVal (c : Char) : Nat := c.toNat - 48

def valDigits (l : List Char) : Nat := l.foldl (fun a c => 10 * a + chVal c) 0

/-- The character-list content of the pipe-joined tail of an address. -/
def joinTail (sep : List Char) : List (List Char) → List Char
  | [] => []
  | x :: xs => sep ++ x ++ joinTail sep xs

def joinSep (sep : List Char) : List (List Char) → List Char
  | [] => []
  | x :: xs => x ++ joinTail sep xs

/-- The character content following the `>` separator in an address. -/
def suffData : Option (List Nat) → List Char
  | none => []
  | some l => joinSep ['|'] (l.map (fun n => (Nat.repr n).data))

/-! ## Helpers for stating the claims -/

/-- The depth list of a visit sequence. -/
def dep (vs : List Visit) : List Nat := vs.map Visit.depth

/-- The effective names recorded for the depth ≥ 2 visits named `w`, in
traversal order. -/
def dupEffs (w : String) (vs : List Visit) : List (Option String) :=
  ((vs.zip (runSteps initState vs).2).filter
    (fun q => q.1.name == some w && decide (1 < q.1.depth))).map (fun q => q.2.effName)

/-- How many depth ≥ 2 visits carry the name `w`. -/
def dupCount (w : String) (vs : List Visit) : Nat :=
  vs.countP (fun v => v.name == some w && decide (1 < v.depth))

/-- The effective name given to the `j`-th (1-based) occurrence of a
duplicated name: the first occurrence is unchanged, occurrence `j ≥ 2`
becomes `w_{j:0>3}`. -/
def dupName (w : String) (j : Nat) : String :=
  if j ≤ 1 then w else w ++ "_" ++ pad3 j

/-- A component subtree whose traversal visits the component, child A,
A's child B, then A's sibling C (the C1 scenario), with arbitrary names. -/
def chainTree (n0 n1 n2 n3 n4 : Option String) : SNode :=
  SNode.mk n0 [SNode.mk n1 [SNode.mk n2 [SNode.mk n3 []], SNode.mk n4 []]]

/-- Three sibling components all named `wheel` (the C3 scenario). -/
def wheelTree : SNode :=
  SNode.mk none [SNode.mk (some "wheel") [], SNode.mk (some "wheel") [],
                 SNode.mk (some "wheel") []]

/-- A scene whose only named node sits one level below the Scene root
(the C4 scenario). -/
def oneChildTree : SNode := SNode.mk none [SNode.mk (some "a") []]

/-- A config tree whose root carries a child with a two-digit component
reference (the C2 counterexample). -/
def twoDigitConfig : XElem :=
  XElem.mk "vehicle" [] [XElem.mk "someTag" [("node", "12>")] []]

/-- A config tree whose root element itself carries an obsolete
memory-usage tag (the C8 counterexample). -/
def memRootConfig : XElem := XElem.mk "textureMemoryUsage" [] []

/-! # Theorems -/

/-! ## Projections of the loop step -/

theorem mapStep_fst_bk (st : MapState) (v : Visit) :
    (mapStep st v).1.bk = bkStep st.bk v.depth := rfl

theorem mapStep_snd_pair (st : MapState) (v : Visit) :
    (mapStep st v).2.pair = pairAt (bkStep st.bk v.depth) v.depth := rfl

theorem mapStep_snd_eff (st : MapState) (v : Visit) :
    (mapStep st v).2.effName = (dedupStep st.unique_names v.name v.depth).2.1 := rfl

theorem mapStep_fst_un (st : MapState) (v : Visit) :
    (mapStep st v).1.unique_names = (dedupStep st.unique_names v.name v.depth).1 := rfl

theorem runSteps_pairs (vs : List Visit) : ∀ st : MapState,
    ((runSteps st vs).2).map Record.pair = bkPairs st.bk (dep vs) := by
  induction vs with
  | nil => intro st; rfl
  | cons v vs ih =>
    intro st
    simp only [runSteps, List.map_cons, dep, bkPairs]
    congr 1
    have h := ih (mapStep st v).1
    rw [mapStep_fst_bk] at h
    simpa [dep] using h

theorem runSteps_length (vs : List Visit) : ∀ st : MapState,
    ((runSteps st vs).2).length = vs.length := by
  induction vs with
  | nil => intro st; rfl
  | cons v vs ih => intro st; simp [runSteps, ih]

/-! ## Claim C1: truncate-then-increment on return to a shallower level -/

/-- **C1** (confirmed).  In the Path Addressor, returning to a shallower
level first truncates the sibling-count vector to the current level and
then increments the counter there: for a component whose traversal
visits child A at depth 3, A's child B at depth 4, then A's sibling C at
depth 3, node C receives address `"0>1"` (second depth-3 child of
component 0), not a continuation of A's subtree.  (Whatever the nodes'
names, so the result is independent of deduplication.) -/
theorem C1_truncate_then_increment (n0 n1 n2 n3 n4 : Option String) :
    ((generate (chainTree n0 n1 n2 n3 n4)).2).map Record.pair
        = [none, some (0, none), some (0, some [0]), some (0, some [0, 0]),
           some (0, some [1])]
    ∧ ((generate (chainTree n0 n1 n2 n3 n4)).2).map (fun r => r.pair.map encodePair)
        = [none, some "0>", some "0>0", some "0>0|0", some "0>1"] := by
  have h1 : ((generate (chainTree n0 n1 n2 n3 n4)).2).map Record.pair
      = [none, some (0, none), some (0, some [0]), some (0, some [0, 0]),
         some (0, some [1])] := by
    rw [generate, runSteps_pairs]
    rfl
  refine ⟨h1, ?_⟩
  have h2 : ((generate (chainTree n0 n1 n2 n3 n4)).2).map (fun r => r.pair.map encodePair)
      = (((generate (chainTree n0 n1 n2 n3 n4)).2).map Record.pair).map
          (Option.map encodePair) := by
    rw [List.map_map]; rfl
  rw [h2, h1]
  rfl

/-! ## Claim C9: skip on reserved `$data` prefix -/

theorem pyStrip_dollar_data {s : String}
    (h : "$data".data.isPrefixOf s.data = true) :
    "$data".data.isPrefixOf (pyStrip s).data = true ∧ ((pyStrip s == "") = false) := by
  have hpre : "$data".data <+: s.data := by
    exact List.isPrefixOf_iff_prefix.mp h
  obtain ⟨t, ht⟩ := hpre
  have hdd : "$data".data = '$' :: "data".data := rfl
  have h1 : (s.data.dropWhile isPyWs) = "$data".data ++ t := by
    rw [← ht, hdd, List.cons_append, List.dropWhile_cons]
    have hws : isPyWs '$' = false := rfl
    rw [hws]
    simp [hdd]
  have hmk : (pyStrip s).data = ((s.data.dropWhile isPyWs).reverse.dropWhile isPyWs).reverse :=
    rfl
  have h2 : ∃ r, (pyStrip s).data = "$data".data ++ r := by
    rw [hmk, h1, List.reverse_append, List.dropWhile_append]
    by_cases hc : ((t.reverse.dropWhile isPyWs).isEmpty = true)
    · rw [if_pos hc]
      refine ⟨[], ?_⟩
      have hrd : ("$data".data.reverse.dropWhile isPyWs) = "$data".data.reverse := by
        decide
      rw [hrd]
      simp
    · rw [if_neg hc]
      refine ⟨(t.reverse.dropWhile isPyWs).reverse, ?_⟩
      simp
  obtain ⟨r, hr⟩ := h2
  constructor
  · rw [hr]
    exact List.isPrefixOf_iff_prefix.mpr (List.prefix_append _ _)
  · have hne : (pyStrip s).data ≠ [] := by
      rw [hr, hdd]; simp
    have : pyStrip s ≠ "" := by
      intro hcon
      apply hne
      rw [hcon]
    exact beq_eq_false_iff_ne.mpr this

/-- **C9** (confirmed).  When the configuration file's `base/filename`
value starts with the reserved game-assets prefix `$data`, processing
stops with a skip log entry and produces no file writes: neither the
scene file nor the configuration file is written. -/
theorem C9_skip_on_data_prefix (env : FileEnv) (s : String)
    (h1 : env.xml_isfile = true) (h2 : env.parse_ok = true)
    (h3 : env.filename_text = some s)
    (h4 : "$data".data.isPrefixOf s.data = true) :
    process_xml env = [Eff.log "Processing XML", Eff.log "i3d file is in $data. Skipping."]
      ∧ Eff.writeI3d ∉ process_xml env ∧ Eff.writeXml ∉ process_xml env := by
  obtain ⟨hp, hne⟩ := pyStrip_dollar_data h4
  have hmain : process_xml env
      = [Eff.log "Processing XML", Eff.log "i3d file is in $data. Skipping."] := by
    rw [process_xml, processBody, h1, h2, h3]
    simp only [Bool.not_true, Bool.false_eq_true, if_false, hne, hp, if_true]
    rfl
  refine ⟨hmain, ?_, ?_⟩ <;> rw [hmain] <;> simp

/-! ## Claim C10: per-file errors are contained -/

theorem foldl_append_eq_flatMap {α β : Type} (f : α → List β) (l : List α) :
    ∀ acc : List β, l.foldl (fun a it => a ++ f it) acc = acc ++ l.flatMap f := by
  induction l with
  | nil => intro acc; simp
  | cons x xs ih => intro acc; simp [ih, List.flatMap_cons]

/-- **C10** (confirmed).  Every per-file error — missing file, malformed
XML, missing filename reference, absent i3d file, failed mapping
generation (missing `Scene`), or a later exception — is caught at the
`process_xml` boundary and converted into a logged message, with no file
writes beyond the point of failure; and the `process_moddesc` batch loop
is a plain concatenation over store items, so a failing item never
terminates the batch. -/
theorem C10_per_file_errors_contained (env : FileEnv) (items : List StoreItem) :
    (env.xml_isfile = false →
      process_xml env = [Eff.log "Processing XML", Eff.log "XML file not found"])
    ∧ (env.xml_isfile = true → env.parse_ok = false →
      process_xml env = [Eff.log "Processing XML", Eff.log "ERROR while processing"])
    ∧ (env.xml_isfile = true → env.parse_ok = true → env.filename_text = none →
      process_xml env
        = [Eff.log "Processing XML",
           Eff.log "base/filename tag missing or empty. Skipping."])
    ∧ (∀ s, env.xml_isfile = true → env.parse_ok = true → env.filename_text = some s →
      (pyStrip s == "") = false →
      "$data".data.isPrefixOf (pyStrip s).data = false →
      env.i3d_isfile = false →
      process_xml env
        = [Eff.log "Processing XML", Eff.log "i3d path resolved",
           Eff.log ".i3d file not found"])
    ∧ (∀ s, env.xml_isfile = true → env.parse_ok = true → env.filename_text = some s →
      (pyStrip s == "") = false →
      "$data".data.isPrefixOf (pyStrip s).data = false →
      env.i3d_isfile = true → env.mapping_ok = false →
      process_xml env
        = [Eff.log "Processing XML", Eff.log "i3d path resolved",
           Eff.log "[ERROR] in generate_i3d_mapping"])
    ∧ (∀ s m, env.xml_isfile = true → env.parse_ok = true → env.filename_text = some s →
      (pyStrip s == "") = false →
      "$data".data.isPrefixOf (pyStrip s).data = false →
      env.i3d_isfile = true → env.mapping_ok = true → env.late_error = some m →
      process_xml env
        = [Eff.log "Processing XML", Eff.log "i3d path resolved",
           Eff.log "Replaced numeric node references", Eff.log "memory usage tags",
           Eff.log "ERROR while processing"]
        ∧ Eff.writeI3d ∉ process_xml env ∧ Eff.writeXml ∉ process_xml env)
    ∧ process_moddesc items = items.flatMap itemEffects := by
  refine ⟨?_, ?_, ?_, ?_, ?_, ?_, ?_⟩
  · intro h; rw [process_xml, processBody, h]; rfl
  · intro h1 h2; rw [process_xml, processBody, h1, h2]; rfl
  · intro h1 h2 h3; rw [process_xml, processBody, h1, h2, h3]; rfl
  · intro s h1 h2 h3 h4 h5 h6
    rw [process_xml, processBody, h1, h2, h3]
    simp only [h4, h5, h6, Bool.not_true, Bool.false_eq_true, if_false]
    rfl
  · intro s h1 h2 h3 h4 h5 h6 h7
    rw [process_xml, processBody, h1, h2, h3]
    simp only [h4, h5, h6, h7, Bool.not_true, Bool.not_false, Bool.false_eq_true,
      if_false, if_true]
    rfl
  · intro s m h1 h2 h3 h4 h5 h6 h7 h8
    have hmain : process_xml env
        = [Eff.log "Processing XML", Eff.log "i3d path resolved",
           Eff.log "Replaced numeric node references", Eff.log "memory usage tags",
           Eff.log "ERROR while processing"] := by
      rw [process_xml, processBody, h1, h2, h3]
      simp only [h4, h5, h6, h7, h8, Bool.not_true, Bool.not_false, Bool.false_eq_true,
        if_false, if_true]
      rfl
    refine ⟨hmain, ?_, ?_⟩ <;> rw [hmain] <;> simp
  · rw [process_moddesc]
    exact foldl_append_eq_flatMap itemEffects items []

/-! ## Claim C3: name deduplication -/

theorem lookup_setName_self (n : String) (c : Nat) :
    ∀ un : List (String × Nat), lookupName (setName un n c) n = some c := by
  intro un
  induction un with
  | nil => simp [setName, lookupName]
  | cons kv rest ih =>
    obtain ⟨k0, v0⟩ := kv
    by_cases h : (k0 == n) = true
    · simp [setName, lookupName, h]
    · have hf : (k0 == n) = false := by simpa using h
      simp [setName, lookupName, hf, ih]

theorem lookup_setName_other (n m : String) (c : Nat) (h : m ≠ n) :
    ∀ un : List (String × Nat), lookupName (setName un n c) m = lookupName un m := by
  have hnm : (n == m) = false := beq_eq_false_iff_ne.mpr (Ne.symm h)
  intro un
  induction un with
  | nil => simp [setName, lookupName, hnm]
  | cons kv rest ih =>
    obtain ⟨k0, v0⟩ := kv
    by_cases hk : (k0 == n) = true
    · have hk0 : k0 = n := eq_of_beq hk
      subst hk0
      simp [setName, lookupName, hnm]
    · have hf : (k0 == n) = false := by simpa using hk
      simp only [setName, hf, Bool.false_eq_true, if_false, lookupName, ih]

theorem dedup_preserves_other (un : List (String × Nat)) (name : Option String)
    (depth : Nat) (w : String)
    (h : (name == some w && decide (1 < depth)) = false) :
    lookupName (dedupStep un name depth).1 w = lookupName un w := by
  rcases name with _ | n
  · simp [dedupStep, truthy]
  · by_cases hd : 1 < depth
    · have hnw : ((some n : Option String) == some w) = false := by
        rcases Bool.and_eq_false_iff.mp h with h1 | h1
        · exact h1
        · exact absurd (decide_eq_true hd) (by simpa using h1)
      have hne : n ≠ w := by
        intro he
        subst he
        simp at hnw
      by_cases hn : n = ""
      · subst hn
        simp [dedupStep, truthy]
      · have ht : truthy (some n) = true := by simp [truthy, hn]
        simp only [dedupStep, decide_eq_true hd, ht, Bool.and_self, if_true]
        cases hl : lookupName un n with
        | some c =>
          simp only [hl]
          exact lookup_setName_other n w _ (Ne.symm hne) un
        | none =>
          simp only [hl]
          exact lookup_setName_other n w _ (Ne.symm hne) un
    · have hdf : decide (1 < depth) = false := by simpa using hd
      simp [dedupStep, hdf]

theorem dedup_bump (un : List (String × Nat)) (w : String) (depth : Nat) (k : Nat)
    (hw : w ≠ "") (hd : 1 < depth)
    (hk : lookupName un w = (if k = 0 then none else some k)) :
    (dedupStep un (some w) depth).2.1 = some (dupName w (k + 1))
    ∧ lookupName (dedupStep un (some w) depth).1 w
        = (if k + 1 = 0 then none else some (k + 1)) := by
  have ht : truthy (some w) = true := by
    simp [truthy, hw]
  simp only [dedupStep, decide_eq_true hd, ht, Bool.and_self, if_true]
  by_cases h0 : k = 0
  · subst h0
    rw [if_pos rfl] at hk
    simp only [hk]
    refine ⟨by simp [dupName], ?_⟩
    rw [if_neg (by omega)]
    exact lookup_setName_self w 1 un
  · rw [if_neg h0] at hk
    simp only [hk]
    constructor
    · simp only [Option.some.injEq]
      rw [dupName, if_neg (by omega)]
    · rw [if_neg (by omega)]
      exact lookup_setName_self w (k + 1) un

theorem dupEffs_general (w : String) (hw : w ≠ "") : ∀ (vs : List Visit) (st : MapState)
    (k : Nat), lookupName st.unique_names w = (if k = 0 then none else some k) →
    ((vs.zip (runSteps st vs).2).filter
        (fun q => q.1.name == some w && decide (1 < q.1.depth))).map (fun q => q.2.effName)
      = (List.range (vs.countP (fun v => v.name == some w && decide (1 < v.depth)))).map
          (fun j => some (dupName w (k + j + 1))) := by
  intro vs
  induction vs with
  | nil => intro st k hk; rfl
  | cons v vs ih =>
    intro st k hk
    have hzip : (v :: vs).zip (runSteps st (v :: vs)).2
        = (v, (mapStep st v).2) :: vs.zip (runSteps (mapStep st v).1 vs).2 := rfl
    rw [hzip]
    by_cases hc : (v.name == some w && decide (1 < v.depth)) = true
    · have hvn : v.name = some w := by
        have := (Bool.and_eq_true _ _).mp hc
        exact eq_of_beq this.1
      have hvd : 1 < v.depth := by
        have := (Bool.and_eq_true _ _).mp hc
        simpa using this.2
      obtain ⟨heff, hreg⟩ := dedup_bump st.unique_names w v.depth k hw hvd hk
      have heff2 : (mapStep st v).2.effName = some (dupName w (k + 1)) := by
        rw [mapStep_snd_eff, hvn, heff]
      have hreg2 : lookupName (mapStep st v).1.unique_names w
          = (if k + 1 = 0 then none else some (k + 1)) := by
        rw [mapStep_fst_un, hvn]
        exact hreg
      rw [List.filter_cons_of_pos (by simpa using hc), List.map_cons, heff2]
      have hcnt : (v :: vs).countP (fun u => u.name == some w && decide (1 < u.depth))
          = vs.countP (fun u => u.name == some w && decide (1 < u.depth)) + 1 := by
        rw [List.countP_cons]
        simp [hc]
      rw [hcnt, List.range_succ_eq_map, List.map_cons, List.map_map]
      rw [List.cons_eq_cons]
      constructor
      · simp
      · rw [ih (mapStep st v).1 (k + 1) hreg2]
        apply List.map_congr_left
        intro a _
        simp only [Function.comp_apply, Option.some.injEq]
        congr 1
        omega
    · have hcf : (v.name == some w && decide (1 < v.depth)) = false := by
        simpa using hc
      have hreg2 : lookupName (mapStep st v).1.unique_names w
          = (if k = 0 then none else some k) := by
        rw [mapStep_fst_un, dedup_preserves_other st.unique_names v.name v.depth w hcf]
        exact hk
      rw [List.filter_cons_of_neg (by simpa using hc)]
      rw [List.countP_cons_of_neg _ _ (by simpa using hc)]
      exact ih (mapStep st v).1 k hreg2

theorem runSteps_eff_shallow : ∀ (vs : List Visit) (st : MapState) (i : Nat) (v : Visit),
    vs[i]? = some v → v.depth ≤ 1 →
    ∃ r, ((runSteps st vs).2)[i]? = some r ∧ r.effName = v.name := by
  intro vs
  induction vs with
  | nil => intro st i v hv; simp at hv
  | cons u vs ih =>
    intro st i v hv hd
    cases i with
    | zero =>
      simp only [List.getElem?_cons_zero, Option.some.injEq] at hv
      obtain rfl := hv
      refine ⟨(mapStep st u).2, by simp [runSteps], ?_⟩
      rw [mapStep_snd_eff]
      have hdf : decide (1 < u.depth) = false := by
        simp only [decide_eq_false_iff_not]
        omega
      simp [dedupStep, hdf]
    | succ j =>
      simp only [List.getElem?_cons_succ] at hv
      obtain ⟨r, hr, he⟩ := ih (mapStep st u).1 j v hv hd
      exact ⟨r, by simpa [runSteps] using hr, he⟩

/-- **C3 counterexample.**  On a scene with three depth-2 nodes named
`wheel`, the effective names are `wheel`, `wheel_002`, `wheel_003` — the
first duplicate receives the suffix `_002` (the incremented occurrence
count), not `_001` as the claim states. -/
theorem C3_counterexample :
    ((generate wheelTree).2).map Record.effName
        = [none, some "wheel", some "wheel_002", some "wheel_003"]
    ∧ ((generate wheelTree).2).map Record.effName
        ≠ [none, some "wheel", some "wheel_001", some "wheel_002"] := by
  exact ⟨rfl, by decide⟩

/-- **C3 amended** (proved).  Within one traversal, the depth ≥ 2 visits
carrying a duplicated name `w` receive the effective names `w`,
`w_002`, `w_003`, ... in traversal order: the first occurrence is
unchanged and the `j`-th occurrence (`j ≥ 2`) gets the zero-padded
3-digit suffix of its occurrence count `j` (so three occurrences give
`w`, `w_002`, `w_003`, not `w`, `w_001`, `w_002`); and a node at depth
≤ 1 is never renamed, regardless of other occurrences. -/
theorem C3_dedup_amended (w : String) (vs : List Visit) (hw : w ≠ "") :
    dupEffs w vs
      = (List.range (dupCount w vs)).map (fun j => some (dupName w (j + 1)))
    ∧ ∀ (i : Nat) (v : Visit), vs[i]? = some v → v.depth ≤ 1 →
        ∃ r, ((runSteps initState vs).2)[i]? = some r ∧ r.effName = v.name := by
  constructor
  · rw [dupEffs, dupCount]
    rw [dupEffs_general w hw vs initState 0 (by rfl)]
    apply List.map_congr_left
    intro a _
    simp
  · intro i v hv hd
    exact runSteps_eff_shallow vs initState i v hv hd

theorem C9_skip_on_data_prefix_witness :
    process_xml ⟨true, true, some "$data/vehicle.i3d", true, true, none⟩
        = [Eff.log "Processing XML", Eff.log "i3d file is in $data. Skipping."]
      ∧ Eff.writeI3d ∉ process_xml ⟨true, true, some "$data/vehicle.i3d", true, true, none⟩
      ∧ Eff.writeXml ∉ process_xml ⟨true, true, some "$data/vehicle.i3d", true, true, none⟩ :=
  C9_skip_on_data_prefix ⟨true, true, some "$data/vehicle.i3d", true, true, none⟩
    "$data/vehicle.i3d" rfl rfl rfl (by decide)

theorem C10_per_file_errors_contained_witness :
    process_xml ⟨true, false, none, true, true, none⟩
        = [Eff.log "Processing XML", Eff.log "ERROR while processing"]
      ∧ process_moddesc [⟨some "v.xml", false, ⟨true, false, none, true, true, none⟩⟩]
        = ([⟨some "v.xml", false, ⟨true, false, none, true, true, none⟩⟩] :
            List StoreItem).flatMap itemEffects :=
  ⟨(C10_per_file_errors_contained ⟨true, false, none, true, true, none⟩ []).2.1 rfl rfl,
   (C10_per_file_errors_contained ⟨true, false, none, true, true, none⟩
      [⟨some "v.xml", false, ⟨true, false, none, true, true, none⟩⟩]).2.2.2.2.2.2⟩

theorem C3_dedup_amended_witness :
    dupEffs "wheel" (visits wheelTree)
        = (List.range (dupCount "wheel" (visits wheelTree))).map
            (fun j => some (dupName "wheel" (j + 1)))
    ∧ dupEffs "wheel" (visits wheelTree)
        = [some "wheel", some "wheel_002", some "wheel_003"] :=
  ⟨(C3_dedup_amended "wheel" (visits wheelTree) (by decide)).1, by decide⟩

/-! ## Claim C4: which depths are addressed -/

mutual
theorem visitsFrom_depth_ge (d : Nat) : ∀ (t : SNode), ∀ v ∈ visitsFrom d t, d ≤ v.depth
  | .mk name cs => by
    intro v hv
    rw [visitsFrom] at hv
    rcases List.mem_cons.mp hv with rfl | hv2
    · exact Nat.le_refl d
    · exact Nat.le_of_succ_le (visitsForest_depth_ge (d + 1) cs v hv2)
theorem visitsForest_depth_ge (d : Nat) : ∀ (cs : List SNode), ∀ v ∈ visitsForest d cs,
    d ≤ v.depth
  | [] => by intro v hv; simp [visitsForest] at hv
  | c :: rest => by
    intro v hv
    rw [visitsForest] at hv
    rcases List.mem_append.mp hv with h | h
    · exact visitsFrom_depth_ge d c v h
    · exact visitsForest_depth_ge d rest v h
end

theorem visitsForest_filter_two : ∀ cs : List SNode,
    (visitsForest 2 cs).filter (fun v => v.depth == 2) = cs.map (fun c => ⟨c.name, 2⟩)
  | [] => rfl
  | c :: rest => by
    obtain ⟨name, ccs⟩ := c
    rw [visitsForest, List.filter_append, visitsFrom]
    rw [List.filter_cons_of_pos (by rfl)]
    have h3 : (visitsForest 3 ccs).filter (fun v => v.depth == 2) = [] := by
      rw [List.filter_eq_nil_iff]
      intro v hv hcon
      have hge := visitsForest_depth_ge 3 ccs v hv
      have : v.depth = 2 := by simpa using hcon
      omega
    rw [h3, visitsForest_filter_two rest]
    rfl

theorem visits_filter_two (t : SNode) :
    (visits t).filter (fun v => v.depth == 2) = t.children.map (fun c => ⟨c.name, 2⟩) := by
  obtain ⟨name, cs⟩ := t
  rw [visits, visitsFrom, List.filter_cons_of_neg (by simp)]
  exact visitsForest_filter_two cs

theorem bkPairs_classify : ∀ (ds : List Nat) (bk : BK) (i : Nat) (d : Nat),
    ds[i]? = some d →
    ∃ o, (bkPairs bk ds)[i]? = some o
      ∧ (d ≤ 1 → o = none)
      ∧ (d = 2 → ∃ c, o = some (c, none))
      ∧ (2 < d → ∃ c l, o = some (c, some l)) := by
  intro ds
  induction ds with
  | nil => intro bk i d h; simp at h
  | cons d0 ds ih =>
    intro bk i d h
    cases i with
    | zero =>
      rw [List.getElem?_cons_zero, Option.some.injEq] at h
      obtain rfl := h
      refine ⟨pairAt (bkStep bk d0) d0, by rw [bkPairs, List.getElem?_cons_zero], ?_, ?_, ?_⟩
      · intro hd
        have h2 : (d0 == 2) = false := beq_eq_false_iff_ne.mpr (by omega)
        have h3 : ¬(2 < d0) := by omega
        simp [pairAt, h2, h3]
      · intro hd
        subst hd
        exact ⟨(bkStep bk 2).current_component, rfl⟩
      · intro hd
        have h2 : (d0 == 2) = false := beq_eq_false_iff_ne.mpr (by omega)
        refine ⟨(bkStep bk d0).current_component, (bkStep bk d0).count_depth, ?_⟩
        simp [pairAt, h2, hd]
    | succ j =>
      rw [List.getElem?_cons_succ] at h
      obtain ⟨o, ho, hA, hB, hC⟩ := ih (bkStep bk d0) j d h
      exact ⟨o, by rw [bkPairs, List.getElem?_cons_succ]; exact ho, hA, hB, hC⟩

/-- **C4 counterexample.**  The claim measures depth "with the Scene
root at depth 0" and states that depth-1 nodes (the Scene root's
immediate children) receive no address, components being two levels
below the root.  But on a scene whose root has a single named child
`a`, that child — one level below the Scene root — receives the
component address `"0>"`: the traversal counts the Scene root as depth
1 and components are its direct children. -/
theorem C4_counterexample :
    (generate oneChildTree).1.print_names = [("a", "0>")]
    ∧ (generate oneChildTree).1.print_names ≠ [] :=
  ⟨rfl, by decide⟩

/-- **C4 amended** (proved).  Measuring depth as the traversal does —
the Scene root is yielded at depth 1 and each child one level deeper —
a visit at depth ≤ 1 (the Scene root) leaves the whole loop state
untouched (no address, no deduplication); the depth-2 visits are exactly
the Scene root's children, i.e. the nodes ONE level below the Scene
root, and exactly they receive component addresses `(c, none)`; visits
deeper than 2 receive vector addresses. -/
theorem C4_depth_convention_amended (t : SNode) :
    (∀ (st : MapState) (v : Visit), v.depth ≤ 1 → mapStep st v = (st, ⟨v.name, none⟩))
    ∧ (visits t).filter (fun v => v.depth == 2) = t.children.map (fun c => ⟨c.name, 2⟩)
    ∧ ∀ (i : Nat) (v : Visit) (r : Record), (visits t)[i]? = some v →
        ((generate t).2)[i]? = some r →
        ((v.depth ≤ 1 → r.pair = none)
         ∧ (v.depth = 2 → ∃ c, r.pair = some (c, none))
         ∧ (2 < v.depth → ∃ c l, r.pair = some (c, some l))) := by
  refine ⟨?_, visits_filter_two t, ?_⟩
  · intro st v hd
    obtain ⟨pn, ld, cd, cc, un, rn⟩ := st
    have h1 : decide (1 < v.depth) = false := by
      simp only [decide_eq_false_iff_not]
      omega
    have h2 : (v.depth == 2) = false := beq_eq_false_iff_ne.mpr (by omega)
    have h3 : ¬(2 < v.depth) := by omega
    simp [mapStep, dedupStep, bkStep, pairAt, MapState.bk, h1, h2, h3]
  · intro i v r hv hr
    have hd : (dep (visits t))[i]? = some v.depth := by
      rw [dep, List.getElem?_map, hv]
      rfl
    have hp : ((generate t).2.map Record.pair)[i]? = some r.pair := by
      rw [List.getElem?_map, hr]
      rfl
    rw [generate, runSteps_pairs] at hp
    obtain ⟨o, ho, hA, hB, hC⟩ := bkPairs_classify (dep (visits t)) initState.bk i v.depth hd
    rw [ho, Option.some.injEq] at hp
    obtain rfl := hp
    exact ⟨hA, hB, hC⟩

theorem C4_depth_convention_amended_witness :
    mapStep initState ⟨some "Scene", 1⟩ = (initState, ⟨some "Scene", none⟩)
    ∧ (visits oneChildTree).filter (fun v => v.depth == 2) = [⟨some "a", 2⟩]
    ∧ ∃ c, (Record.mk (some "a") (some ((0 : Int), none))).pair = some (c, none) :=
  ⟨(C4_depth_convention_amended oneChildTree).1 initState ⟨some "Scene", 1⟩ (by decide),
   by rw [(C4_depth_convention_amended oneChildTree).2.1]; rfl,
   ((C4_depth_convention_amended oneChildTree).2.2 1 ⟨some "a", 2⟩
      ⟨some "a", some ((0 : Int), none)⟩ (by decide) (by decide)).2.1 rfl⟩

/-! ## Claim C8: memory-usage tag stripping -/

theorem pruneList_no_tag (tg : String) : ∀ (cs : List XElem),
    ∀ x ∈ subForest (pruneList tg cs).1, x.tag ≠ tg
  | [] => by intro x hx; simp [pruneList, subForest] at hx
  | c :: rest => by
    intro x hx
    by_cases hc : (c.tag == tg) = true
    · rw [pruneList] at hx
      simp only [hc, if_true] at hx
      exact pruneList_no_tag tg rest x hx
    · have hf : (c.tag == tg) = false := by simpa using hc
      rw [pruneList] at hx
      simp only [hf, Bool.false_eq_true, if_false] at hx
      rw [subForest] at hx
      rcases List.mem_append.mp hx with h | h
      · obtain ⟨ctag, cattrs, ccs⟩ := c
        rw [pruneElem] at h
        rw [subElems] at h
        rcases List.mem_cons.mp h with rfl | h2
        · simpa [XElem.tag] using beq_eq_false_iff_ne.mp hf
        · exact pruneList_no_tag tg ccs x h2
      · exact pruneList_no_tag tg rest x h

theorem pruneList_preserve (tg tg2 : String) : ∀ (cs : List XElem),
    (∀ x ∈ subForest cs, x.tag ≠ tg) →
    ∀ x ∈ subForest (pruneList tg2 cs).1, x.tag ≠ tg
  | [] => by intro _ x hx; simp [pruneList, subForest] at hx
  | c :: rest => by
    intro hall x hx
    have hallc : ∀ y ∈ subElems c, y.tag ≠ tg := fun y hy =>
      hall y (by rw [subForest]; exact List.mem_append.mpr (Or.inl hy))
    have hallr : ∀ y ∈ subForest rest, y.tag ≠ tg := fun y hy =>
      hall y (by rw [subForest]; exact List.mem_append.mpr (Or.inr hy))
    by_cases hc : (c.tag == tg2) = true
    · rw [pruneList] at hx
      simp only [hc, if_true] at hx
      exact pruneList_preserve tg tg2 rest hallr x hx
    · have hf : (c.tag == tg2) = false := by simpa using hc
      rw [pruneList] at hx
      simp only [hf, Bool.false_eq_true, if_false] at hx
      rw [subForest] at hx
      rcases List.mem_append.mp hx with h | h
      · obtain ⟨ctag, cattrs, ccs⟩ := c
        rw [pruneElem] at h
        rw [subElems] at h
        rcases List.mem_cons.mp h with rfl | h2
        · exact hallc (XElem.mk ctag cattrs ccs)
            (by rw [subElems]; exact List.mem_cons_self _ _)
        · have hallcc : ∀ y ∈ subForest ccs, y.tag ≠ tg := fun y hy =>
            hallc y (by rw [subElems]; exact List.mem_cons_of_mem _ hy)
          exact pruneList_preserve tg tg2 ccs hallcc x h2
      · exact pruneList_preserve tg tg2 rest hallr x h

theorem pruneList_noop (tg : String) : ∀ (cs : List XElem),
    (∀ x ∈ subForest cs, x.tag ≠ tg) → pruneList tg cs = (cs, 0)
  | [] => fun _ => rfl
  | c :: rest => by
    intro hall
    obtain ⟨ctag, cattrs, ccs⟩ := c
    have hmem : XElem.mk ctag cattrs ccs ∈ subForest (XElem.mk ctag cattrs ccs :: rest) := by
      rw [subForest, subElems]
      exact List.mem_append.mpr (Or.inl (List.mem_cons_self _ _))
    have hctag : ctag ≠ tg := by
      simpa [XElem.tag] using hall (XElem.mk ctag cattrs ccs) hmem
    have hf : ((XElem.mk ctag cattrs ccs).tag == tg) = false := by
      simpa [XElem.tag] using beq_eq_false_iff_ne.mpr hctag
    have hr : pruneList tg rest = (rest, 0) :=
      pruneList_noop tg rest (fun y hy =>
        hall y (by rw [subForest]; exact List.mem_append.mpr (Or.inr hy)))
    have hcc : pruneList tg ccs = (ccs, 0) :=
      pruneList_noop tg ccs (fun y hy =>
        hall y (by
          rw [subForest, subElems]
          exact List.mem_append.mpr (Or.inl (List.mem_cons_of_mem _ hy))))
    rw [pruneList]
    simp only [hf, Bool.false_eq_true, if_false, hr, pruneElem, hcc]

theorem pruneElem_no_tag (tg : String) (e : XElem) :
    ∀ x ∈ strictDesc (pruneElem tg e).1, x.tag ≠ tg := by
  obtain ⟨tag, attrs, cs⟩ := e
  rw [pruneElem]
  exact pruneList_no_tag tg cs

theorem pruneElem_preserve (tg tg2 : String) (e : XElem)
    (h : ∀ x ∈ strictDesc e, x.tag ≠ tg) :
    ∀ x ∈ strictDesc (pruneElem tg2 e).1, x.tag ≠ tg := by
  obtain ⟨tag, attrs, cs⟩ := e
  rw [pruneElem]
  exact pruneList_preserve tg tg2 cs h

theorem pruneElem_noop (tg : String) (e : XElem)
    (h : ∀ x ∈ strictDesc e, x.tag ≠ tg) : pruneElem tg e = (e, 0) := by
  obtain ⟨tag, attrs, cs⟩ := e
  rw [pruneElem, pruneList_noop tg cs h]

theorem fold_prune_preserve (tg : String) : ∀ (tgs : List String) (p : XElem × Nat),
    (∀ x ∈ strictDesc p.1, x.tag ≠ tg) →
    ∀ x ∈ strictDesc (tgs.foldl
        (fun acc tg2 => ((pruneElem tg2 acc.1).1, acc.2 + (pruneElem tg2 acc.1).2)) p).1,
      x.tag ≠ tg := by
  intro tgs
  induction tgs with
  | nil => intro p h; exact h
  | cons tg2 rest ih =>
    intro p h
    rw [List.foldl_cons]
    exact ih _ (pruneElem_preserve tg tg2 p.1 h)

theorem fold_prune_establish : ∀ (tgs : List String) (p : XElem × Nat), ∀ tg ∈ tgs,
    ∀ x ∈ strictDesc (tgs.foldl
        (fun acc tg2 => ((pruneElem tg2 acc.1).1, acc.2 + (pruneElem tg2 acc.1).2)) p).1,
      x.tag ≠ tg := by
  intro tgs
  induction tgs with
  | nil => intro p tg htg; simp at htg
  | cons tg2 rest ih =>
    intro p tg htg
    rcases List.mem_cons.mp htg with rfl | hmem
    · rw [List.foldl_cons]
      exact fold_prune_preserve tg rest _ (pruneElem_no_tag tg p.1)
    · rw [List.foldl_cons]
      exact ih _ tg hmem

theorem fold_prune_noop : ∀ (tgs : List String) (p : XElem × Nat),
    (∀ tg ∈ tgs, ∀ x ∈ strictDesc p.1, x.tag ≠ tg) →
    tgs.foldl (fun acc tg2 => ((pruneElem tg2 acc.1).1, acc.2 + (pruneElem tg2 acc.1).2)) p
      = p := by
  intro tgs
  induction tgs with
  | nil => intro p _; rfl
  | cons tg2 rest ih =>
    intro p h
    rw [List.foldl_cons]
    have hstep : ((pruneElem tg2 p.1).1, p.2 + (pruneElem tg2 p.1).2) = p := by
      rw [pruneElem_noop tg2 p.1 (h tg2 (List.mem_cons_self _ _))]
      simp
    rw [hstep]
    exact ih p (fun tg htg => h tg (List.mem_cons_of_mem _ htg))

/-- **C8 counterexample.**  The memory-tag phase only scans elements
strictly below the root (`.//tag`), so a document whose root element
itself carries an obsolete memory-usage tag keeps it and reports zero
removals — contradicting "no element whose tag is in the fixed obsolete
memory-usage tag list remains anywhere in the ConfigTree". -/
theorem C8_counterexample :
    memRootConfig.tag ∈ MEMORY_TAGS
    ∧ removeMemoryTags memRootConfig = (memRootConfig, 0) :=
  ⟨by decide, rfl⟩

/-- **C8 amended** (proved).  After the memory-tag-stripping phase no
element STRICTLY BELOW the root of the ConfigTree has a tag in the fixed
obsolete list, regardless of nesting depth or how many instances
existed (the scan is `.//tag`, which never inspects the root element
itself); and a document whose proper descendants contain no such tag
reports a removal count of zero and is left unchanged by the phase. -/
theorem C8_memory_strip_amended (root : XElem) :
    (∀ tg ∈ MEMORY_TAGS, ∀ x ∈ strictDesc (removeMemoryTags root).1, x.tag ≠ tg)
    ∧ ((∀ tg ∈ MEMORY_TAGS, ∀ x ∈ strictDesc root, x.tag ≠ tg) →
        removeMemoryTags root = (root, 0)) := by
  constructor
  · intro tg htg
    have h := fold_prune_establish MEMORY_TAGS (root, 0) tg htg
    exact h
  · intro h
    have := fold_prune_noop MEMORY_TAGS (root, 0) (fun tg htg => h tg htg)
    exact this

/-! ## Claim C2: the reference rewriter -/

theorem contains_true_iff (l : List String) (a : String) : l.contains a = true ↔ a ∈ l := by
  rw [show l.contains a = List.elem a l from rfl]
  exact List.elem_iff

theorem attrSpec_fst (cache : List (String × String)) (tys : List String) (tag : String)
    (kv : String × String) : (attrSpec cache tys tag kv).1 = kv.1 := by
  rw [attrSpec]
  split <;> rfl

theorem attrSpec_id_of_not_mem (cache : List (String × String)) (tys : List String)
    (tag : String) (kv : String × String) (h : tys.contains kv.1 = false) :
    attrSpec cache tys tag kv = kv := by
  have hg : rewriteGuard cache tys tag kv = false := by
    rw [rewriteGuard, h, Bool.false_and]
  rw [attrSpec, hg]
  rfl

theorem attrSpec_id_of_not_valueOk (cache : List (String × String)) (tys : List String)
    (tag : String) (kv : String × String) (h : valueOk cache tag kv = false) :
    attrSpec cache tys tag kv = kv := by
  have hg : rewriteGuard cache tys tag kv = false := by
    rw [rewriteGuard, h, Bool.and_false]
  rw [attrSpec, hg]
  rfl

theorem attrSpec_hit (cache : List (String × String)) (tys : List String)
    (tag : String) (kv : String × String) (hc : tys.contains kv.1 = true)
    (hv : valueOk cache tag kv = true) :
    attrSpec cache tys tag kv = (kv.1, (lookupStr cache kv.2).getD kv.2) := by
  have hg : rewriteGuard cache tys tag kv = true := by
    rw [rewriteGuard, hc, hv]
    rfl
  rw [attrSpec, hg]
  rfl

theorem contains_one (ty z : String) : ([ty].contains z) = (z == ty) := by
  rw [List.contains_cons, List.contains_nil, Bool.or_false]

theorem attrSpec_comp (cache : List (String × String)) (tys : List String) (ty tag : String)
    (kv : String × String) (hnot : ty ∉ tys) :
    attrSpec cache [ty] tag (attrSpec cache tys tag kv)
      = attrSpec cache (tys ++ [ty]) tag kv := by
  by_cases hv : valueOk cache tag kv = true
  · by_cases hc : tys.contains kv.1 = true
    · have hkm : kv.1 ∈ tys := (contains_true_iff tys kv.1).mp hc
      have hk : kv.1 ≠ ty := fun he => hnot (he ▸ hkm)
      have h2 : (tys ++ [ty]).contains kv.1 = true := by
        rw [contains_true_iff]
        exact List.mem_append.mpr (Or.inl hkm)
      rw [attrSpec_hit cache tys tag kv hc hv]
      rw [attrSpec_id_of_not_mem cache [ty] tag _
        (by rw [contains_one]; exact beq_eq_false_iff_ne.mpr hk)]
      rw [attrSpec_hit cache (tys ++ [ty]) tag kv h2 hv]
    · have hcf : tys.contains kv.1 = false := by simpa using hc
      rw [attrSpec_id_of_not_mem cache tys tag kv hcf]
      by_cases he : kv.1 = ty
      · have h1 : ([ty].contains kv.1) = true := by
          rw [contains_true_iff, List.mem_singleton]
          exact he
        have h2 : ((tys ++ [ty]).contains kv.1) = true := by
          rw [contains_true_iff]
          exact List.mem_append.mpr (Or.inr (List.mem_singleton.mpr he))
        rw [attrSpec_hit cache [ty] tag kv h1 hv, attrSpec_hit cache (tys ++ [ty]) tag kv h2 hv]
      · have h1 : ([ty].contains kv.1) = false := by
          rw [contains_one]
          exact beq_eq_false_iff_ne.mpr he
        have h2 : ((tys ++ [ty]).contains kv.1) = false := by
          by_cases hcc : ((tys ++ [ty]).contains kv.1) = true
          · exfalso
            rcases List.mem_append.mp ((contains_true_iff _ _).mp hcc) with hm | hm
            · rw [← contains_true_iff] at hm
              rw [hcf] at hm
              exact Bool.false_ne_true hm
            · exact he (List.mem_singleton.mp hm)
          · simpa using hcc
        rw [attrSpec_id_of_not_mem cache [ty] tag kv h1,
            attrSpec_id_of_not_mem cache (tys ++ [ty]) tag kv h2]
  · have hvf : valueOk cache tag kv = false := by simpa using hv
    rw [attrSpec_id_of_not_valueOk cache tys tag kv hvf,
        attrSpec_id_of_not_valueOk cache [ty] tag kv hvf,
        attrSpec_id_of_not_valueOk cache (tys ++ [ty]) tag kv hvf]

theorem keys_ne_of_nodup (k0 v0 : String) (rest : List (String × String))
    (hnd : (((k0, v0) :: rest).map Prod.fst).Nodup) : ∀ kv ∈ rest, kv.1 ≠ k0 := by
  intro kv hkv he
  rw [List.map_cons] at hnd
  have hmem : kv.1 ∈ rest.map Prod.fst := List.mem_map_of_mem Prod.fst hkv
  rw [he] at hmem
  exact (List.nodup_cons.mp hnd).1 hmem

theorem map_attrSpec_id_of_no_key (cache : List (String × String)) (ty tag : String)
    (l : List (String × String)) (h : ∀ kv ∈ l, kv.1 ≠ ty) :
    l.map (attrSpec cache [ty] tag) = l := by
  have hall : ∀ kv ∈ l, attrSpec cache [ty] tag kv = kv := fun kv hkv =>
    attrSpec_id_of_not_mem _ _ _ _
      (by rw [contains_one]; exact beq_eq_false_iff_ne.mpr (h kv hkv))
  calc l.map (attrSpec cache [ty] tag) = l.map id :=
        List.map_congr_left (fun kv hkv => hall kv hkv)
    _ = l := List.map_id l

theorem countP_guard_zero_of_no_key (cache : List (String × String)) (ty tag : String)
    (l : List (String × String)) (h : ∀ kv ∈ l, kv.1 ≠ ty) :
    l.countP (rewriteGuard cache [ty] tag) = 0 := by
  rw [List.countP_eq_zero]
  intro kv hkv hg
  rw [rewriteGuard, contains_one] at hg
  exact h kv hkv (eq_of_beq ((Bool.and_eq_true _ _).mp hg).1)

theorem valueOk_mapping_tag (cache : List (String × String)) (tag : String)
    (kv : String × String) (htag : (tag != "i3dMapping") = false) :
    valueOk cache tag kv = false := by
  rw [valueOk, htag, Bool.false_and, Bool.false_and, Bool.false_and]

theorem rewriteHere_mapping_tag (cache : List (String × String)) (ty tag : String)
    (attrs : List (String × String)) (htag : (tag != "i3dMapping") = false) :
    rewriteHere cache ty tag attrs = (attrs, 0) := by
  rw [rewriteHere, htag]
  rfl

theorem rewriteHere_cons_ne (cache : List (String × String)) (ty tag k0 v0 : String)
    (rest : List (String × String)) (hky : (k0 == ty) = false) :
    rewriteHere cache ty tag ((k0, v0) :: rest)
      = ((k0, v0) :: (rewriteHere cache ty tag rest).1,
         (rewriteHere cache ty tag rest).2) := by
  by_cases htag : (tag != "i3dMapping") = true
  · rw [rewriteHere, rewriteHere, htag]
    simp only [if_true]
    rw [getAttr]
    simp only [hky, Bool.false_eq_true, if_false]
    cases hga : getAttr rest ty with
    | none => rfl
    | some v =>
      by_cases hcond : (v != "" && is_numeric_node v) = true
      · simp only [hcond, if_true]
        cases hl : lookupStr cache v with
        | some nm =>
          simp only [setAttr, hky, Bool.false_eq_true, if_false]
        | none => rfl
      · have hcf : (v != "" && is_numeric_node v) = false := by simpa using hcond
        simp only [hcf, Bool.false_eq_true, if_false]
  · have hf : (tag != "i3dMapping") = false := by simpa using htag
    rw [rewriteHere_mapping_tag cache ty tag _ hf, rewriteHere_mapping_tag cache ty tag rest hf]

theorem rewriteHere_spec (cache : List (String × String)) (ty tag : String) :
    ∀ attrs : List (String × String), (attrs.map Prod.fst).Nodup →
    rewriteHere cache ty tag attrs
      = (attrs.map (attrSpec cache [ty] tag), attrs.countP (rewriteGuard cache [ty] tag)) := by
  intro attrs
  by_cases htag : (tag != "i3dMapping") = true
  · induction attrs with
    | nil =>
      intro _
      rw [rewriteHere, htag]
      rfl
    | cons kv rest ih =>
      intro hnd
      obtain ⟨k0, v0⟩ := kv
      have hrest : ∀ z ∈ rest, z.1 ≠ k0 := keys_ne_of_nodup k0 v0 rest hnd
      have hndr : (rest.map Prod.fst).Nodup := by
        rw [List.map_cons] at hnd
        exact (List.nodup_cons.mp hnd).2
      by_cases hky : (k0 == ty) = true
      · have hk0 : k0 = ty := eq_of_beq hky
        have hrestty : ∀ z ∈ rest, z.1 ≠ ty := fun z hz => hk0 ▸ hrest z hz
        have hmapid : rest.map (attrSpec cache [ty] tag) = rest :=
          map_attrSpec_id_of_no_key cache ty tag rest hrestty
        have hcnt0 : rest.countP (rewriteGuard cache [ty] tag) = 0 :=
          countP_guard_zero_of_no_key cache ty tag rest hrestty
        have hcontains : ([ty].contains (k0, v0).1) = true := by
          rw [contains_one]
          exact hky
        rw [rewriteHere, htag]
        simp only [if_true]
        rw [getAttr]
        simp only [hky, if_true]
        by_cases hv : valueOk cache tag (k0, v0) = true
        · have hparts := (Bool.and_eq_true _ _).mp hv
          have hsome := hparts.2
          have hparts2 := (Bool.and_eq_true _ _).mp hparts.1
          have hnum := hparts2.2
          have hparts3 := (Bool.and_eq_true _ _).mp hparts2.1
          have hne := hparts3.2
          have hcond : (v0 != "" && is_numeric_node v0) = true := by
            rw [hne, hnum]
            rfl
          obtain ⟨nm, hnm⟩ := Option.isSome_iff_exists.mp hsome
          rw [hcond]
          simp only [if_true]
          rw [hnm]
          simp only [setAttr, hky, if_true]
          rw [List.map_cons, attrSpec_hit cache [ty] tag (k0, v0) hcontains hv, hmapid]
          rw [List.countP_cons_of_pos _ _ (by rw [rewriteGuard, hcontains, hv]; rfl)]
          rw [hcnt0, hnm]
          rfl
        · have hvf : valueOk cache tag (k0, v0) = false := by simpa using hv
          have hres : (if (v0 != "" && is_numeric_node v0) = true then
              (match lookupStr cache v0 with
               | some nm => (setAttr ((k0, v0) :: rest) ty nm, 1)
               | none => ((k0, v0) :: rest, 0))
              else ((k0, v0) :: rest, 0))
              = ((k0, v0) :: rest, 0) := by
            by_cases hcond : (v0 != "" && is_numeric_node v0) = true
            · rw [if_pos hcond]
              cases hl : lookupStr cache v0 with
              | none => rfl
              | some nm =>
                exfalso
                rw [valueOk, htag] at hvf
                simp only [Bool.true_and] at hvf
                rw [(Bool.and_eq_true _ _).mp hcond |>.1, (Bool.and_eq_true _ _).mp hcond |>.2,
                  hl] at hvf
                simp at hvf
            · rw [if_neg hcond]
          rw [hres]
          rw [List.map_cons, attrSpec_id_of_not_valueOk cache [ty] tag (k0, v0) hvf, hmapid]
          rw [List.countP_cons_of_neg _ _ (by rw [rewriteGuard, hvf, Bool.and_false]; simp),
            hcnt0]
      · have hkyf : (k0 == ty) = false := by simpa using hky
        rw [rewriteHere_cons_ne cache ty tag k0 v0 rest hkyf, ih hndr]
        rw [List.map_cons, attrSpec_id_of_not_mem cache [ty] tag (k0, v0)
          (by rw [contains_one]; exact hkyf)]
        rw [List.countP_cons_of_neg _ _
          (by rw [rewriteGuard, contains_one]; rw [show ((k0, v0).1 == ty) = false from hkyf,
            Bool.false_and]; simp)]
  · intro _
    have hf : (tag != "i3dMapping") = false := by simpa using htag
    rw [rewriteHere_mapping_tag cache ty tag attrs hf]
    have hmap : attrs.map (attrSpec cache [ty] tag) = attrs := by
      calc attrs.map (attrSpec cache [ty] tag) = attrs.map id :=
            List.map_congr_left (fun kv _ =>
              attrSpec_id_of_not_valueOk cache [ty] tag kv (valueOk_mapping_tag cache tag kv hf))
        _ = attrs := List.map_id attrs
    have hcnt : attrs.countP (rewriteGuard cache [ty] tag) = 0 := by
      rw [List.countP_eq_zero]
      intro kv _ hg
      rw [rewriteGuard, valueOk_mapping_tag cache tag kv hf, Bool.and_false] at hg
      exact Bool.false_ne_true hg
    rw [hmap, hcnt]

theorem rewriteGuard_one_attrSpec (cache : List (String × String)) (tys : List String)
    (ty tag : String) (kv : String × String) (hnot : ty ∉ tys) :
    rewriteGuard cache [ty] tag (attrSpec cache tys tag kv)
      = rewriteGuard cache [ty] tag kv := by
  by_cases hv : valueOk cache tag kv = true
  · by_cases hc : tys.contains kv.1 = true
    · have hkm : kv.1 ∈ tys := (contains_true_iff tys kv.1).mp hc
      have hk : kv.1 ≠ ty := fun he => hnot (he ▸ hkm)
      have hbf : (kv.1 == ty) = false := beq_eq_false_iff_ne.mpr hk
      have hL : rewriteGuard cache [ty] tag (kv.1, (lookupStr cache kv.2).getD kv.2)
          = false := by
        rw [rewriteGuard, contains_one]
        rw [show (((kv.1, (lookupStr cache kv.2).getD kv.2)).1 == ty) = false from hbf]
        rw [Bool.false_and]
      have hR : rewriteGuard cache [ty] tag kv = false := by
        rw [rewriteGuard, contains_one, hbf, Bool.false_and]
      rw [attrSpec_hit cache tys tag kv hc hv, hL, hR]
    · have hcf : tys.contains kv.1 = false := by simpa using hc
      rw [attrSpec_id_of_not_mem cache tys tag kv hcf]
  · have hvf : valueOk cache tag kv = false := by simpa using hv
    rw [attrSpec_id_of_not_valueOk cache tys tag kv hvf]

mutual
theorem passElem_spec (cache : List (String × String)) (ty : String) (tys : List String)
    (hnot : ty ∉ tys) : ∀ (e : XElem), (∀ x ∈ subElems e, (x.attrs.map Prod.fst).Nodup) →
    passElem cache ty (specElem cache tys e)
      = (specElem cache (tys ++ [ty]) e, specCountElem cache [ty] e)
  | .mk tag attrs cs => by
    intro hwf
    have hwfself : (attrs.map Prod.fst).Nodup := by
      have h := hwf (.mk tag attrs cs) (by rw [subElems]; exact List.mem_cons_self _ _)
      simpa [XElem.attrs] using h
    have hwfkids : ∀ x ∈ subForest cs, (x.attrs.map Prod.fst).Nodup := fun x hx =>
      hwf x (by rw [subElems]; exact List.mem_cons_of_mem _ hx)
    have hnd2 : ((attrs.map (attrSpec cache tys tag)).map Prod.fst).Nodup := by
      rw [List.map_map]
      have heq : attrs.map (Prod.fst ∘ attrSpec cache tys tag) = attrs.map Prod.fst :=
        List.map_congr_left (fun kv _ => attrSpec_fst cache tys tag kv)
      rw [heq]
      exact hwfself
    rw [specElem, passElem]
    rw [passList_spec cache ty tys hnot cs hwfkids]
    rw [rewriteHere_spec cache ty tag _ hnd2]
    have hmap : (attrs.map (attrSpec cache tys tag)).map (attrSpec cache [ty] tag)
        = attrs.map (attrSpec cache (tys ++ [ty]) tag) := by
      rw [List.map_map]
      exact List.map_congr_left (fun kv _ => attrSpec_comp cache tys ty tag kv hnot)
    have hcnt : (attrs.map (attrSpec cache tys tag)).countP (rewriteGuard cache [ty] tag)
        = attrs.countP (rewriteGuard cache [ty] tag) := by
      rw [List.countP_map]
      exact List.countP_congr (fun kv hkv => by
        rw [Function.comp_apply, rewriteGuard_one_attrSpec cache tys ty tag kv hnot])
    rw [hmap, hcnt, specElem, specCountElem]
theorem passList_spec (cache : List (String × String)) (ty : String) (tys : List String)
    (hnot : ty ∉ tys) : ∀ (cs : List XElem),
    (∀ x ∈ subForest cs, (x.attrs.map Prod.fst).Nodup) →
    passList cache ty (specList cache tys cs)
      = (specList cache (tys ++ [ty]) cs, specCountList cache [ty] cs)
  | [] => by intro _; rfl
  | c :: rest => by
    intro hwf
    have hwfc : ∀ x ∈ subElems c, (x.attrs.map Prod.fst).Nodup := fun x hx =>
      hwf x (by rw [subForest]; exact List.mem_append.mpr (Or.inl hx))
    have hwfr : ∀ x ∈ subForest rest, (x.attrs.map Prod.fst).Nodup := fun x hx =>
      hwf x (by rw [subForest]; exact List.mem_append.mpr (Or.inr hx))
    rw [specList, passList]
    rw [passElem_spec cache ty tys hnot c hwfc, passList_spec cache ty tys hnot rest hwfr]
    rw [specList, specCountList]
end

mutual
theorem specElem_nil (cache : List (String × String)) : ∀ e : XElem,
    specElem cache [] e = e
  | .mk tag attrs cs => by
    rw [specElem, specList_nil cache cs]
    have hmap : attrs.map (attrSpec cache [] tag) = attrs := by
      calc attrs.map (attrSpec cache [] tag) = attrs.map id :=
            List.map_congr_left (fun kv _ =>
              attrSpec_id_of_not_mem cache [] tag kv (List.contains_nil))
        _ = attrs := List.map_id attrs
    rw [hmap]
theorem specList_nil (cache : List (String × String)) : ∀ cs : List XElem,
    specList cache [] cs = cs
  | [] => rfl
  | c :: rest => by rw [specList, specElem_nil cache c, specList_nil cache rest]
end

theorem sum_map_add {α : Type} (l : List α) (f g : α → Nat) :
    (l.map (fun x => f x + g x)).sum = (l.map f).sum + (l.map g).sum := by
  induction l with
  | nil => rfl
  | cons x xs ih =>
    simp only [List.map_cons, List.sum_cons, ih]
    omega

theorem sum_indicator_beq (k : String) : ∀ tys : List String, tys.Nodup →
    (tys.map (fun ty => if (k == ty) = true then 1 else 0)).sum
      = (if tys.contains k = true then 1 else 0) := by
  intro tys
  induction tys with
  | nil => intro _; rfl
  | cons ty rest ih =>
    intro hnd
    rw [List.map_cons, List.sum_cons, ih (List.nodup_cons.mp hnd).2, List.contains_cons]
    by_cases he : (k == ty) = true
    · have hk : k = ty := eq_of_beq he
      have hniff : rest.contains k = false := by
        by_cases hcc : rest.contains k = true
        · exact absurd (hk ▸ (contains_true_iff rest k).mp hcc) (List.nodup_cons.mp hnd).1
        · simpa using hcc
      rw [he, hniff]
      simp
    · have hef : (k == ty) = false := by simpa using he
      rw [hef]
      simp

theorem countP_guard_sum (cache : List (String × String)) (tag : String) :
    ∀ (attrs : List (String × String)) (tys : List String), tys.Nodup →
    (tys.map (fun ty => attrs.countP (rewriteGuard cache [ty] tag))).sum
      = attrs.countP (rewriteGuard cache tys tag) := by
  intro attrs
  induction attrs with
  | nil =>
    intro tys _
    simp [List.countP_nil]
  | cons kv rest ih =>
    intro tys hnd
    have h1 : (tys.map (fun ty => ((kv :: rest).countP (rewriteGuard cache [ty] tag)))).sum
        = (tys.map (fun ty => rest.countP (rewriteGuard cache [ty] tag)
            + (if rewriteGuard cache [ty] tag kv then 1 else 0))).sum := by
      apply congrArg List.sum
      apply List.map_congr_left
      intro ty _
      rw [List.countP_cons]
    rw [h1, sum_map_add, ih tys hnd, List.countP_cons]
    congr 1
    by_cases hv : valueOk cache tag kv = true
    · have h2 : (tys.map (fun ty => if rewriteGuard cache [ty] tag kv then 1 else 0))
          = (tys.map (fun ty => if (kv.1 == ty) = true then 1 else 0)) := by
        apply List.map_congr_left
        intro ty _
        rw [rewriteGuard, contains_one, hv, Bool.and_true]
      rw [h2, sum_indicator_beq kv.1 tys hnd, rewriteGuard, hv, Bool.and_true]
    · have hvf : valueOk cache tag kv = false := by simpa using hv
      have h2 : (tys.map (fun ty => if rewriteGuard cache [ty] tag kv then 1 else 0))
          = tys.map (fun _ => 0) := by
        apply List.map_congr_left
        intro ty _
        rw [rewriteGuard, hvf, Bool.and_false]
        rfl
      rw [h2, rewriteGuard, hvf, Bool.and_false]
      simp

mutual
theorem specCountElem_sum (cache : List (String × String)) : ∀ (e : XElem)
    (tys : List String), tys.Nodup →
    (tys.map (fun ty => specCountElem cache [ty] e)).sum = specCountElem cache tys e
  | .mk tag attrs cs => by
    intro tys hnd
    have h1 : (tys.map (fun ty => specCountElem cache [ty] (.mk tag attrs cs))).sum
        = (tys.map (fun ty => attrs.countP (rewriteGuard cache [ty] tag)
            + specCountList cache [ty] cs)).sum := by
      apply congrArg List.sum
      apply List.map_congr_left
      intro ty _
      rw [specCountElem]
    rw [h1, sum_map_add, countP_guard_sum cache tag attrs tys hnd,
      specCountList_sum cache cs tys hnd, specCountElem]
theorem specCountList_sum (cache : List (String × String)) : ∀ (cs : List XElem)
    (tys : List String), tys.Nodup →
    (tys.map (fun ty => specCountList cache [ty] cs)).sum = specCountList cache tys cs
  | [] => by
    intro tys _
    simp [specCountList]
  | c :: rest => by
    intro tys hnd
    have h1 : (tys.map (fun ty => specCountList cache [ty] (c :: rest))).sum
        = (tys.map (fun ty => specCountElem cache [ty] c
            + specCountList cache [ty] rest)).sum := by
      apply congrArg List.sum
      apply List.map_congr_left
      intro ty _
      rw [specCountList]
    rw [h1, sum_map_add, specCountElem_sum cache c tys hnd,
      specCountList_sum cache rest tys hnd, specCountList]
end

theorem rewriteAll_fold (cache : List (String × String)) :
    ∀ (rem done : List String) (tag : String) (attrs : List (String × String))
      (cs : List XElem) (n : Nat),
    (∀ x ∈ subForest cs, (x.attrs.map Prod.fst).Nodup) →
    rem.Nodup → (∀ ty ∈ rem, ty ∉ done) →
    rem.foldl
      (fun acc ty =>
        match acc.1 with
        | .mk tag2 attrs2 cs2 =>
          let r := passList cache ty cs2
          (XElem.mk tag2 attrs2 r.1, acc.2 + r.2))
      (XElem.mk tag attrs (specList cache done cs), n)
      = (XElem.mk tag attrs (specList cache (done ++ rem) cs),
         n + (rem.map (fun ty => specCountList cache [ty] cs)).sum) := by
  intro rem
  induction rem with
  | nil =>
    intro done tag attrs cs n _ _ _
    simp
  | cons ty rest ih =>
    intro done tag attrs cs n hwf hnd hdis
    rw [List.foldl_cons]
    have hstep : (match (XElem.mk tag attrs (specList cache done cs), n).1 with
        | .mk tag2 attrs2 cs2 =>
          let r := passList cache ty cs2
          (XElem.mk tag2 attrs2 r.1, (XElem.mk tag attrs (specList cache done cs), n).2 + r.2))
        = (XElem.mk tag attrs (specList cache (done ++ [ty]) cs),
           n + specCountList cache [ty] cs) := by
      show (XElem.mk tag attrs (passList cache ty (specList cache done cs)).1,
          n + (passList cache ty (specList cache done cs)).2)
        = (XElem.mk tag attrs (specList cache (done ++ [ty]) cs),
           n + specCountList cache [ty] cs)
      rw [passList_spec cache ty done (hdis ty (List.mem_cons_self _ _)) cs hwf]
    rw [hstep]
    rw [ih (done ++ [ty]) tag attrs cs (n + specCountList cache [ty] cs) hwf
      (List.nodup_cons.mp hnd).2
      (fun ty2 hty2 => by
        intro hmem
        rcases List.mem_append.mp hmem with hm | hm
        · exact hdis ty2 (List.mem_cons_of_mem _ hty2) hm
        · rw [List.mem_singleton] at hm
          exact (List.nodup_cons.mp hnd).1 (hm ▸ hty2))]
    rw [List.append_assoc, List.singleton_append, List.map_cons, List.sum_cons]
    rw [Nat.add_assoc]

/-- **C2 counterexample.**  `is_numeric_node` is `re.fullmatch(r"\d>[0-9|]*", v)`
— exactly ONE digit before the separator, not `\d+` as the claim says.
A reference value `"12>"` with a two-digit component index matches the
claim's pattern and is a key of the lookup, yet the rewriter leaves it
untouched and counts nothing. -/
theorem C2_counterexample :
    spec_numeric_pattern "12>" = true
    ∧ lookupStr [("12>", "partA")] "12>" = some "partA"
    ∧ is_numeric_node "12>" = false
    ∧ rewriteAll [("12>", "partA")] twoDigitConfig = (twoDigitConfig, 0) := by
  refine ⟨by decide, rfl, by decide, ?_⟩
  rfl

/-- **C2 amended** (proved).  For every element of the ConfigTree
STRICTLY BELOW the root (the scan is `.//*[@attr]`) whose tag is not
`i3dMapping` and that carries an attribute from the `NODE_TYPES`
vocabulary, the rewriter replaces the attribute's value with the
looked-up name — and counts the replacement — if and only if the value
is non-empty, textually matches `is_numeric_node` (`^\d>[0-9|]*$`:
exactly ONE digit, the separator, then digits/pipes — a multi-digit
component index does NOT match) and is a key of the address→name
lookup: the whole phase equals the per-attribute pointwise transform
`attrSpec`/`rewriteGuard`, with the count the number of matching
(element, attribute) pairs. -/
theorem C2_rewrite_amended (cache : List (String × String)) (root : XElem)
    (hwf : WfAttrs root) :
    rewriteAll cache root
      = (XElem.mk root.tag root.attrs (specList cache NODE_TYPES root.children),
         specCountList cache NODE_TYPES root.children) := by
  obtain ⟨tag, attrs, cs⟩ := root
  have hwfkids : ∀ x ∈ subForest cs, (x.attrs.map Prod.fst).Nodup := fun x hx =>
    hwf x (by rw [subElems]; exact List.mem_cons_of_mem _ hx)
  have hnodup : NODE_TYPES.Nodup := by decide
  have hfold := rewriteAll_fold cache NODE_TYPES [] tag attrs cs 0 hwfkids hnodup
    (fun ty _ => List.not_mem_nil ty)
  rw [List.nil_append, Nat.zero_add, specList_nil cache cs,
    specCountList_sum cache cs NODE_TYPES hnodup] at hfold
  rw [rewriteAll]
  exact hfold

theorem C2_rewrite_amended_witness :
    rewriteAll [("2>0|1", "bob")]
        (XElem.mk "vehicle" [] [XElem.mk "part" [("node", "2>0|1"), ("repr", "abc")] []])
      = (XElem.mk "vehicle" [] [XElem.mk "part" [("node", "bob"), ("repr", "abc")] []], 1) := by
  rw [C2_rewrite_amended [("2>0|1", "bob")]
    (XElem.mk "vehicle" [] [XElem.mk "part" [("node", "2>0|1"), ("repr", "abc")] []])
    (by
      intro e he
      simp only [subElems, subForest, List.append_nil] at he
      rcases List.mem_cons.mp he with rfl | he2
      · decide
      · rcases List.mem_cons.mp he2 with rfl | he3
        · decide
        · simp at he3)]
  rfl

theorem C8_memory_strip_amended_witness :
    (∀ tg ∈ MEMORY_TAGS,
      ∀ x ∈ strictDesc
          (removeMemoryTags (XElem.mk "vehicle" [] [XElem.mk "engine" [] []])).1,
        x.tag ≠ tg)
    ∧ removeMemoryTags (XElem.mk "vehicle" [] [XElem.mk "engine" [] []])
        = (XElem.mk "vehicle" [] [XElem.mk "engine" [] []], 0) :=
  ⟨(C8_memory_strip_amended (XElem.mk "vehicle" [] [XElem.mk "engine" [] []])).1,
   (C8_memory_strip_amended (XElem.mk "vehicle" [] [XElem.mk "engine" [] []])).2
     (by
       intro tg htg x hx
       simp only [strictDesc, XElem.children, subForest, subElems, List.append_nil] at hx
       rw [List.mem_singleton] at hx
       subst hx
       intro hcon
       rw [XElem.tag] at hcon
       subst hcon
       exact absurd htg (by decide))⟩

/-! ## Decimal representation: `Nat.repr` through `digitsOf` -/

theorem digitsOf_small (n : Nat) (h : n < 10) : digitsOf n = [Nat.digitChar n] := by
  rw [digitsOf, dif_pos h]

theorem digitsOf_large (n : Nat) (h : 10 ≤ n) :
    digitsOf n = digitsOf (n / 10) ++ [Nat.digitChar (n % 10)] := by
  rw [digitsOf, dif_neg (by omega : ¬ n < 10)]

theorem toDigitsCore_spec : ∀ (fuel n : Nat) (acc : List Char), n < fuel →
    Nat.toDigitsCore 10 fuel n acc = digitsOf n ++ acc := by
  intro fuel
  induction fuel with
  | zero => intro n acc h; omega
  | succ f ih =>
    intro n acc h
    simp only [Nat.toDigitsCore]
    by_cases h0 : n / 10 = 0
    · rw [if_pos h0]
      have hn : n < 10 := by omega
      rw [digitsOf_small n hn, Nat.mod_eq_of_lt hn]
      rfl
    · rw [if_neg h0]
      have h10 : 10 ≤ n := by
        by_contra hc
        exact h0 (Nat.div_eq_of_lt (by omega))
      have hlt : n / 10 < f := by
        have hx := Nat.div_lt_self (by omega : 0 < n) (by omega : 1 < 10)
        omega
      rw [ih (n / 10) (Nat.digitChar (n % 10) :: acc) hlt, digitsOf_large n h10]
      simp

theorem repr_data (n : Nat) : (Nat.repr n).data = digitsOf n := by
  rw [Nat.repr, Nat.toDigits, toDigitsCore_spec (n + 1) n [] (Nat.lt_succ_self n)]
  simp [List.asString]

theorem digitChar_isDigit (n : Nat) (h : n < 10) : (Nat.digitChar n).isDigit = true := by
  interval_cases n <;> decide

theorem chVal_digitChar (n : Nat) (h : n < 10) : chVal (Nat.digitChar n) = n := by
  interval_cases n <;> decide

theorem digitsOf_all_digit (n : Nat) : ∀ c ∈ digitsOf n, c.isDigit = true := by
  induction n using Nat.strong_induction_on with
  | _ n ih =>
    by_cases h : n < 10
    · rw [digitsOf_small n h]
      intro c hc
      rw [List.mem_singleton] at hc
      subst hc
      exact digitChar_isDigit n h
    · rw [digitsOf_large n (by omega)]
      intro c hc
      rcases List.mem_append.mp hc with h1 | h1
      · exact ih (n / 10) (Nat.div_lt_self (by omega) (by omega)) c h1
      · rw [List.mem_singleton] at h1
        subst h1
        exact digitChar_isDigit _ (Nat.mod_lt n (by omega))

theorem digitsOf_ne_nil (n : Nat) : digitsOf n ≠ [] := by
  by_cases h : n < 10
  · rw [digitsOf_small n h]
    simp
  · rw [digitsOf_large n (by omega)]
    simp

theorem valDigits_digitsOf (n : Nat) : valDigits (digitsOf n) = n := by
  induction n using Nat.strong_induction_on with
  | _ n ih =>
    by_cases h : n < 10
    · rw [digitsOf_small n h]
      show 10 * 0 + chVal (Nat.digitChar n) = n
      rw [chVal_digitChar n h]
      omega
    · rw [digitsOf_large n (by omega)]
      rw [valDigits, List.foldl_append]
      have hih := ih (n / 10) (Nat.div_lt_self (by omega) (by omega))
      rw [valDigits] at hih
      rw [hih]
      show 10 * (n / 10) + chVal (Nat.digitChar (n % 10)) = n
      rw [chVal_digitChar _ (Nat.mod_lt n (by omega))]
      omega

theorem repr_data_inj (m n : Nat) (h : (Nat.repr m).data = (Nat.repr n).data) : m = n := by
  rw [repr_data, repr_data] at h
  have h2 := congrArg valDigits h
  rwa [valDigits_digitsOf, valDigits_digitsOf] at h2

/-! ## String data plumbing for `node_maker` -/

theorem data_append (s t : String) : (s ++ t).data = s.data ++ t.data := by
  obtain ⟨a⟩ := s
  obtain ⟨b⟩ := t
  rfl

theorem intercalate_go_data (s : String) : ∀ (as : List String) (acc : String),
    (String.intercalate.go acc s as).data = acc.data ++ joinTail s.data (as.map String.data)
  | [], acc => by
    rw [String.intercalate.go]
    simp [joinTail]
  | a :: as, acc => by
    rw [String.intercalate.go, intercalate_go_data s as (acc ++ s ++ a)]
    rw [data_append, data_append, List.map_cons, joinTail]
    simp

theorem intercalate_data (s : String) : ∀ as : List String,
    (String.intercalate s as).data = joinSep s.data (as.map String.data)
  | [] => rfl
  | a :: as => by
    rw [String.intercalate, intercalate_go_data s as a, List.map_cons, joinSep]

theorem toString_int_ofNat (n : Nat) : toString (Int.ofNat n) = Nat.repr n := rfl

theorem encodePair_data (n : Nat) (o : Option (List Nat)) :
    (encodePair (Int.ofNat n, o)).data = (Nat.repr n).data ++ '>' :: suffData o := by
  cases o with
  | none =>
    show (toString (Int.ofNat n) ++ ">").data = (Nat.repr n).data ++ '>' :: []
    rw [data_append, toString_int_ofNat]
  | some l =>
    show ((toString (Int.ofNat n) ++ ">") ++
        String.intercalate "|" (l.map (fun i => toString i))).data
      = (Nat.repr n).data ++ '>' :: suffData (some l)
    rw [data_append, data_append, toString_int_ofNat, intercalate_data]
    have hmap : (l.map (fun i => toString i)).map String.data
        = l.map (fun i => (Nat.repr i).data) := by
      rw [List.map_map]
      rfl
    rw [hmap, List.append_assoc]
    rfl

/-! ## Injectivity of address encoding on well-formed pairs -/

theorem digit_append_inj : ∀ (a b x y : List Char),
    (∀ c ∈ a, c.isDigit = true) → (∀ c ∈ b, c.isDigit = true) →
    (x = [] ∨ ∃ c t, x = c :: t ∧ c.isDigit = false) →
    (y = [] ∨ ∃ c t, y = c :: t ∧ c.isDigit = false) →
    a ++ x = b ++ y → a = b ∧ x = y := by
  intro a
  induction a with
  | nil =>
    intro b x y _ hb hx hy he
    rw [List.nil_append] at he
    cases b with
    | nil =>
      rw [List.nil_append] at he
      exact ⟨rfl, he⟩
    | cons c bt =>
      exfalso
      rcases hx with rfl | ⟨c2, t2, rfl, hc2⟩
      · simp at he
      · rw [List.cons_append] at he
        have hcc : c2 = c := (List.cons_eq_cons.mp he).1
        rw [hcc, hb c (List.mem_cons_self _ _)] at hc2
        exact absurd hc2 (by decide)
  | cons c ct ih =>
    intro b x y ha hb hx hy he
    cases b with
    | nil =>
      exfalso
      rw [List.nil_append] at he
      rcases hy with rfl | ⟨c2, t2, rfl, hc2⟩
      · simp at he
      · rw [List.cons_append] at he
        have hcc : c = c2 := (List.cons_eq_cons.mp he).1
        rw [← hcc, ha c (List.mem_cons_self _ _)] at hc2
        exact absurd hc2 (by decide)
    | cons c2 bt =>
      rw [List.cons_append, List.cons_append] at he
      obtain ⟨hc, ht⟩ := List.cons_eq_cons.mp he
      obtain ⟨h1, h2⟩ := ih bt x y (fun z hz => ha z (List.mem_cons_of_mem _ hz))
        (fun z hz => hb z (List.mem_cons_of_mem _ hz)) hx hy ht
      exact ⟨by rw [hc, h1], h2⟩

theorem pipe_not_digit : ('|' : Char).isDigit = false := by decide

theorem gt_not_digit : ('>' : Char).isDigit = false := by decide

theorem joinTail_shape (l : List Nat) :
    joinTail ['|'] (l.map (fun n => (Nat.repr n).data)) = []
    ∨ ∃ c t, joinTail ['|'] (l.map (fun n => (Nat.repr n).data)) = c :: t
        ∧ c.isDigit = false := by
  cases l with
  | nil => exact Or.inl rfl
  | cons a t =>
    right
    rw [List.map_cons, joinTail]
    exact ⟨'|', (Nat.repr a).data ++ joinTail ['|'] (t.map (fun n => (Nat.repr n).data)),
      by simp, pipe_not_digit⟩

theorem repr_all_digit (n : Nat) : ∀ c ∈ (Nat.repr n).data, c.isDigit = true := by
  rw [repr_data]
  exact digitsOf_all_digit n

theorem joinTail_inj : ∀ (l1 l2 : List Nat),
    joinTail ['|'] (l1.map (fun n => (Nat.repr n).data))
      = joinTail ['|'] (l2.map (fun n => (Nat.repr n).data)) → l1 = l2
  | [], [] => fun _ => rfl
  | [], b :: t2 => by
    intro he
    rw [List.map_cons, joinTail] at he
    simp [joinTail] at he
  | a :: t1, [] => by
    intro he
    rw [List.map_cons, joinTail] at he
    simp [joinTail] at he
  | a :: t1, b :: t2 => by
    intro he
    rw [List.map_cons, List.map_cons, joinTail, joinTail] at he
    have he2 : (Nat.repr a).data ++ joinTail ['|'] (t1.map (fun n => (Nat.repr n).data))
        = (Nat.repr b).data ++ joinTail ['|'] (t2.map (fun n => (Nat.repr n).data)) := by
      have h3 : ('|' :: ((Nat.repr a).data
            ++ joinTail ['|'] (t1.map (fun n => (Nat.repr n).data))))
          = ('|' :: ((Nat.repr b).data
            ++ joinTail ['|'] (t2.map (fun n => (Nat.repr n).data)))) := by
        simpa using he
      exact (List.cons_eq_cons.mp h3).2
    obtain ⟨h1, h2⟩ := digit_append_inj (Nat.repr a).data (Nat.repr b).data _ _
      (repr_all_digit a) (repr_all_digit b) (joinTail_shape t1) (joinTail_shape t2) he2
    rw [repr_data_inj a b h1, joinTail_inj t1 t2 h2]

theorem joinSep_ne_nil (l : List Nat) (h : l ≠ []) :
    joinSep ['|'] (l.map (fun n => (Nat.repr n).data)) ≠ [] := by
  cases l with
  | nil => exact absurd rfl h
  | cons a t =>
    rw [List.map_cons, joinSep]
    intro hcon
    rcases List.append_eq_nil.mp hcon with ⟨h1, _⟩
    exact digitsOf_ne_nil a (by rw [← repr_data]; exact h1)

theorem joinSep_inj (l1 l2 : List Nat) (h1 : l1 ≠ []) (h2 : l2 ≠ []) :
    joinSep ['|'] (l1.map (fun n => (Nat.repr n).data))
      = joinSep ['|'] (l2.map (fun n => (Nat.repr n).data)) → l1 = l2 := by
  cases l1 with
  | nil => exact absurd rfl h1
  | cons a t1 =>
    cases l2 with
    | nil => exact absurd rfl h2
    | cons b t2 =>
      intro he
      rw [List.map_cons, List.map_cons, joinSep, joinSep] at he
      obtain ⟨ha, ht⟩ := digit_append_inj (Nat.repr a).data (Nat.repr b).data _ _
        (repr_all_digit a) (repr_all_digit b) (joinTail_shape t1) (joinTail_shape t2) he
      rw [repr_data_inj a b ha, joinTail_inj t1 t2 ht]

theorem suffData_shape (o : Option (List Nat)) :
    '>' :: suffData o = []
    ∨ ∃ c t, '>' :: suffData o = c :: t ∧ c.isDigit = false :=
  Or.inr ⟨'>', suffData o, rfl, gt_not_digit⟩

theorem encodePair_inj (p q : Int × Option (List Nat)) (hp : wfPair p) (hq : wfPair q)
    (he : encodePair p = encodePair q) : p = q := by
  obtain ⟨cp, op⟩ := p
  obtain ⟨cq, oq⟩ := q
  obtain ⟨np, rfl⟩ : ∃ n : Nat, cp = Int.ofNat n := by
    obtain ⟨n, hn⟩ := Int.eq_ofNat_of_zero_le hp.1
    exact ⟨n, hn⟩
  obtain ⟨nq, rfl⟩ : ∃ n : Nat, cq = Int.ofNat n := by
    obtain ⟨n, hn⟩ := Int.eq_ofNat_of_zero_le hq.1
    exact ⟨n, hn⟩
  have hdata : (Nat.repr np).data ++ '>' :: suffData op
      = (Nat.repr nq).data ++ '>' :: suffData oq := by
    rw [← encodePair_data, ← encodePair_data, he]
  obtain ⟨hn, hs⟩ := digit_append_inj (Nat.repr np).data (Nat.repr nq).data _ _
    (repr_all_digit np) (repr_all_digit nq) (suffData_shape op) (suffData_shape oq) hdata
  have hnn : np = nq := repr_data_inj np nq hn
  have hss : suffData op = suffData oq := (List.cons_eq_cons.mp hs).2
  have hoo : op = oq := by
    rcases hp.2 with hp2 | ⟨lp, hlp, hlpne⟩
    · rcases hq.2 with hq2 | ⟨lq, hlq, hlqne⟩
      · rw [show op = none from hp2, show oq = none from hq2]
      · exfalso
        rw [show op = none from hp2, show oq = some lq from hlq] at hss
        exact joinSep_ne_nil lq hlqne hss.symm
    · rcases hq.2 with hq2 | ⟨lq, hlq, hlqne⟩
      · exfalso
        rw [show op = some lp from hlp, show oq = none from hq2] at hss
        exact joinSep_ne_nil lp hlpne hss
      · rw [show op = some lp from hlp, show oq = some lq from hlq]
        rw [show op = some lp from hlp, show oq = some lq from hlq] at hss
        rw [joinSep_inj lp lq hlpne hlqne hss]
  rw [hnn, hoo]

/-! ## The strict order on structured addresses -/

theorem vecLt_trans : ∀ {l1 l2 l3 : List Nat}, vecLt l1 l2 → vecLt l2 l3 → vecLt l1 l3 := by
  intro l1 l2 l3 h12
  induction h12 generalizing l3 with
  | nil =>
    intro h23
    cases h23 with
    | head h => exact vecLt.nil
    | tail h => exact vecLt.nil
  | head h =>
    intro h23
    cases h23 with
    | head h2 => exact vecLt.head (Nat.lt_trans h h2)
    | tail h2 => exact vecLt.head h
  | tail h ih =>
    intro h23
    cases h23 with
    | head h2 => exact vecLt.head h2
    | tail h2 => exact vecLt.tail (ih h2)

theorem vecLt_irrefl : ∀ l : List Nat, ¬ vecLt l l := by
  intro l
  induction l with
  | nil => intro h; cases h
  | cons a t ih =>
    intro h
    cases h with
    | head h2 => exact Nat.lt_irrefl a h2
    | tail h2 => exact ih h2

theorem optVecLt_trans : ∀ {o1 o2 o3 : Option (List Nat)},
    optVecLt o1 o2 → optVecLt o2 o3 → optVecLt o1 o3 := by
  intro o1 o2 o3 h12 h23
  match o1, o2, o3 with
  | none, some l2, some l3 => exact trivial
  | some l1, some l2, some l3 => exact vecLt_trans h12 h23
  | none, none, _ => exact h12.elim
  | some _, none, _ => exact h12.elim
  | none, some _, none => exact h23.elim
  | some _, some _, none => exact h23.elim

theorem pairLt_trans : ∀ {p q r : Int × Option (List Nat)},
    pairLt p q → pairLt q r → pairLt p r := by
  intro p q r hpq hqr
  rcases hpq with h1 | ⟨he1, hv1⟩
  · rcases hqr with h2 | ⟨he2, hv2⟩
    · exact Or.inl (Int.lt_trans h1 h2)
    · exact Or.inl (he2 ▸ h1)
  · rcases hqr with h2 | ⟨he2, hv2⟩
    · exact Or.inl (he1 ▸ h2)
    · exact Or.inr ⟨he1.trans he2, optVecLt_trans hv1 hv2⟩

theorem pairLt_irrefl : ∀ p : Int × Option (List Nat), ¬ pairLt p p := by
  intro p hp
  rcases hp with h | ⟨_, hv⟩
  · exact Int.lt_irrefl _ h
  · cases hop : p.2 with
    | none => rw [hop] at hv; exact hv
    | some l => rw [hop] at hv; exact vecLt_irrefl l hv

/-! ## Bookkeeping step lemmas -/

theorem popN_eq_take : ∀ (k : Nat) (l : List Nat), k ≤ l.length →
    popN l k = l.take (l.length - k) := by
  intro k
  induction k with
  | zero =>
    intro l _
    rw [popN, Nat.sub_zero, List.take_length]
  | succ j ih =>
    intro l hle
    have hne : l ≠ [] := by
      intro hcon
      rw [hcon] at hle
      simp at hle
    have hemp : l.isEmpty = false := by
      cases l with
      | nil => exact absurd rfl hne
      | cons x t => rfl
    rw [popN, hemp]
    simp only [Bool.false_eq_true, if_false]
    have hlen : l.dropLast.length = l.length - 1 := List.length_dropLast l
    rw [ih l.dropLast (by omega), hlen, List.dropLast_eq_take, List.take_take]
    rw [Nat.min_eq_left (by omega)]
    congr 1
    omega

theorem set_concat_last : ∀ (u : List Nat) (a x : Nat), (u ++ [a]).set u.length x = u ++ [x] := by
  intro u
  induction u with
  | nil => intro a x; rfl
  | cons c t ih =>
    intro a x
    rw [List.cons_append, List.length_cons, List.set_cons_succ, ih, List.cons_append]

theorem getD_concat_last : ∀ (u : List Nat) (a : Nat), (u ++ [a]).getD u.length 0 = a := by
  intro u
  induction u with
  | nil => intro a; rfl
  | cons c t ih =>
    intro a
    rw [List.cons_append, List.length_cons]
    exact ih a

theorem vecLt_self_append : ∀ (l : List Nat) (a : Nat) (t : List Nat), vecLt l (l ++ a :: t) := by
  intro l
  induction l with
  | nil => intro a t; exact vecLt.nil
  | cons x xs ih => intro a t; exact vecLt.tail (ih a t)

theorem vecLt_middle : ∀ (u : List Nat) (a b : Nat) (l1 l2 : List Nat), a < b →
    vecLt (u ++ a :: l1) (u ++ b :: l2) := by
  intro u
  induction u with
  | nil => intro a b l1 l2 h; exact vecLt.head h
  | cons x xs ih => intro a b l1 l2 h; exact vecLt.tail (ih a b l1 l2 h)

theorem bkStep_low (bk : BK) (d : Nat) (hd : d ≤ 1) : bkStep bk d = bk := by
  have h2 : (d == 2) = false := beq_eq_false_iff_ne.mpr (by omega)
  have h3 : ¬ (2 < d) := by omega
  rw [bkStep, h2]
  simp [h3]

theorem bkStep_two (bk : BK) : bkStep bk 2 = ⟨bk.current_component + 1, [], 0⟩ := rfl

theorem bkStep_comp_ne_two (bk : BK) (d : Nat) (hd : d ≠ 2) :
    (bkStep bk d).current_component = bk.current_component := by
  have h2 : (d == 2) = false := beq_eq_false_iff_ne.mpr hd
  rw [bkStep, h2]
  simp only [Bool.false_eq_true, if_false]
  by_cases h3 : 2 < d
  · simp [h3]
  · simp [h3]

theorem bkStep_deep (bk : BK) (d : Nat) (hd : 3 ≤ d)
    (hlen : bk.count_depth.length = bk.last_depth) (hle : d - 2 ≤ bk.last_depth + 1) :
    (bkStep bk d).current_component = bk.current_component
    ∧ (bkStep bk d).last_depth = d - 2
    ∧ (bkStep bk d).count_depth.length = d - 2
    ∧ vecLt bk.count_depth (bkStep bk d).count_depth := by
  obtain ⟨c, cd, last⟩ := bk
  simp only [BK.count_depth, BK.last_depth] at hlen hle
  have h2 : (d == 2) = false := beq_eq_false_iff_ne.mpr (by omega)
  have h3 : (2 < d) = True := eq_true (by omega)
  rw [bkStep, h2]
  simp only [Bool.false_eq_true, if_false, h3, if_true]
  by_cases hc : last < d - 2
  · have hone : d - 2 - last = 1 := by omega
    simp only [if_pos hc, hone, List.replicate_one]
    refine ⟨trivial, trivial, ?_, ?_⟩
    · simp [hlen]
      omega
    · exact vecLt_self_append cd 0 []
  · simp only [if_neg hc]
    have hkle : last - (d - 2) ≤ cd.length := by omega
    have htake : popN cd (last - (d - 2)) = cd.take (d - 2) := by
      rw [popN_eq_take (last - (d - 2)) cd hkle, hlen]
      congr 1
      omega
    have hplen : (popN cd (last - (d - 2))).length = d - 2 := by
      rw [htake, List.length_take]
      omega
    have hpne : popN cd (last - (d - 2)) ≠ [] := by
      intro hcon
      rw [hcon] at hplen
      simp at hplen
      omega
    have hemp : (popN cd (last - (d - 2))).isEmpty = false := by
      cases hp : popN cd (last - (d - 2)) with
      | nil => exact absurd hp hpne
      | cons x t => rfl
    simp only [hemp, Bool.false_eq_true, if_false]
    set popped := popN cd (last - (d - 2)) with hpop
    obtain ⟨u, a, hua⟩ : ∃ u a, popped = u ++ [a] :=
      ⟨popped.dropLast, popped.getLast hpne, (List.dropLast_append_getLast hpne).symm⟩
    have hidx : d - 2 - 1 = (u ++ [a]).length - 1 := by
      rw [← hua, hplen]
    have hinc : incAt popped (d - 2 - 1) = u ++ [a + 1] := by
      rw [hua, hidx]
      have hl : (u ++ [a]).length - 1 = u.length := by simp
      rw [incAt, hl, getD_concat_last, set_concat_last]
    refine ⟨trivial, trivial, ?_, ?_⟩
    · rw [hinc]
      have : (u ++ [a]).length = d - 2 := by rw [← hua]; exact hplen
      simp at this ⊢
      omega
    · have hcd : cd = u ++ a :: cd.drop (d - 2) := by
        have h4 : popped ++ cd.drop (d - 2) = cd := by
          rw [htake]
          exact List.take_append_drop (d - 2) cd
        conv_lhs => rw [← h4]
        rw [hua, List.append_assoc, List.singleton_append]
      rw [hinc, hcd]
      exact vecLt_middle u _ _ _ _ (Nat.lt_succ_self _)

theorem invBK_step (bk : BK) (p d : Nat) (h2 : 2 ≤ d) (hle : d ≤ p + 1)
    (hinv : InvBK bk p) : InvBK (bkStep bk d) d := by
  obtain ⟨hlen, hmax, hneg, hpos⟩ := hinv
  by_cases hd2 : d = 2
  · subst hd2
    rw [bkStep_two]
    refine ⟨rfl, rfl, ?_, fun _ => ?_⟩
    · show (-1 : Int) ≤ bk.current_component + 1
      omega
    · show (0 : Int) ≤ bk.current_component + 1
      omega
  · have hd3 : 3 ≤ d := by omega
    have hp2 : 2 ≤ p := by omega
    have hlast : bk.last_depth + 2 = p := by
      rw [hmax]
      exact Nat.max_eq_left (by omega)
    have hle2 : d - 2 ≤ bk.last_depth + 1 := by omega
    obtain ⟨hcomp, hlastd, hlend, _⟩ := bkStep_deep bk d hd3 hlen hle2
    refine ⟨by rw [hlend, hlastd], ?_, ?_, ?_⟩
    · rw [hlastd, Nat.max_eq_left (by omega : 2 ≤ d)]
      omega
    · rw [hcomp]
      exact hneg
    · intro _
      rw [hcomp]
      exact hpos hp2

theorem pair_step (bk : BK) (p d : Nat) (h2 : 2 ≤ d) (hle : d ≤ p + 1) (hinv : InvBK bk p) :
    pairLt (prevPair bk) (pairAtS (bkStep bk d) d)
    ∧ prevPair (bkStep bk d) = pairAtS (bkStep bk d) d
    ∧ wfPair (pairAtS (bkStep bk d) d) := by
  obtain ⟨hlen, hmax, hneg, hpos⟩ := hinv
  by_cases hd2 : d = 2
  · subst hd2
    rw [bkStep_two]
    refine ⟨Or.inl ?_, rfl, ⟨?_, Or.inl rfl⟩⟩
    · show bk.current_component < bk.current_component + 1
      omega
    · show (0 : Int) ≤ bk.current_component + 1
      omega
  · have hd3 : 3 ≤ d := by omega
    have hp2 : 2 ≤ p := by omega
    have hle2 : d - 2 ≤ bk.last_depth + 1 := by
      have hl : bk.last_depth + 2 = p := by
        rw [hmax]
        exact Nat.max_eq_left (by omega)
      omega
    obtain ⟨hcomp, hlastd, hlend, hvec⟩ := bkStep_deep bk d hd3 hlen hle2
    have hne2 : (d == 2) = false := beq_eq_false_iff_ne.mpr hd2
    have hpair : pairAtS (bkStep bk d) d
        = (bk.current_component, some (bkStep bk d).count_depth) := by
      rw [pairAtS, hne2, hcomp]
      simp
    have hcdne : (bkStep bk d).count_depth ≠ [] := by
      intro hcon
      rw [hcon] at hlend
      simp at hlend
      omega
    have hempf : (bkStep bk d).count_depth.isEmpty = false := by
      cases hcase : (bkStep bk d).count_depth with
      | nil => exact absurd hcase hcdne
      | cons x t => rfl
    refine ⟨?_, ?_, ?_⟩
    · rw [hpair, prevPair]
      right
      refine ⟨rfl, ?_⟩
      by_cases hemp : bk.count_depth.isEmpty = true
      · rw [hemp]
        simp [optVecLt]
      · have hef : bk.count_depth.isEmpty = false := by simpa using hemp
        rw [hef]
        simp only [Bool.false_eq_true, if_false]
        exact hvec
    · rw [hpair, prevPair, hempf]
      simp only [Bool.false_eq_true, if_false]
      rw [hcomp]
    · rw [hpair]
      exact ⟨hpos hp2, Or.inr ⟨(bkStep bk d).count_depth, rfl, hcdne⟩⟩

theorem bk_master : ∀ (ds : List Nat) (bk : BK) (p : Nat), Adm p ds → InvBK bk p →
    List.Chain' pairLt (prevPair bk :: bkPairsS bk ds)
    ∧ (∀ q ∈ bkPairsS bk ds, wfPair q)
    ∧ (∀ (i d : Nat), ds[i]? = some d → 2 < d →
        ∃ c l, (bkPairsS bk ds)[i]? = some (c, some l) ∧ l.length + 2 = d) := by
  intro ds
  induction ds with
  | nil =>
    intro bk p _ _
    refine ⟨List.chain'_singleton _, ?_, ?_⟩
    · intro q hq
      simp [bkPairsS] at hq
    · intro i d h
      simp at h
  | cons d0 rest ih =>
    intro bk p hadm hinv
    cases hadm with
    | cons h2 hle ha =>
      obtain ⟨hlt, hprev, hwf0⟩ := pair_step bk p d0 h2 hle hinv
      have hinv1 := invBK_step bk p d0 h2 hle hinv
      obtain ⟨hch, hwfr, hposr⟩ := ih (bkStep bk d0) d0 ha hinv1
      have hunf : bkPairsS bk (d0 :: rest)
          = pairAtS (bkStep bk d0) d0 :: bkPairsS (bkStep bk d0) rest := rfl
      rw [hunf]
      refine ⟨?_, ?_, ?_⟩
      · rw [List.chain'_cons]
        refine ⟨hlt, ?_⟩
        rw [← hprev]
        exact hch
      · intro q hq
        rcases List.mem_cons.mp hq with rfl | hq2
        · exact hwf0
        · exact hwfr q hq2
      · intro i d hget hd
        cases i with
        | zero =>
          rw [List.getElem?_cons_zero, Option.some.injEq] at hget
          obtain rfl := hget
          have hne2 : (d0 == 2) = false := beq_eq_false_iff_ne.mpr (by omega)
          refine ⟨(bkStep bk d0).current_component, (bkStep bk d0).count_depth, ?_, ?_⟩
          · rw [List.getElem?_cons_zero, pairAtS, hne2]
            simp
          · obtain ⟨hlen1, hmax1, _, _⟩ := hinv1
            rw [Nat.max_eq_left (by omega : 2 ≤ d0)] at hmax1
            omega
        | succ j =>
          rw [List.getElem?_cons_succ] at hget
          obtain ⟨c, l, hl, hlen⟩ := hposr j d hget hd
          refine ⟨c, l, ?_, hlen⟩
          rw [List.getElem?_cons_succ]
          exact hl

/-! ## Admissibility of traversal depth sequences -/

theorem getLastD_append_nat (l1 l2 : List Nat) (p : Nat) :
    (l1 ++ l2).getLastD p = l2.getLastD (l1.getLastD p) := by
  induction l1 generalizing p with
  | nil => rfl
  | cons x xs ih => rw [List.cons_append, List.getLastD_cons, List.getLastD_cons, ih]

theorem adm_append : ∀ {p : Nat} {l1 l2 : List Nat}, Adm p l1 → Adm (l1.getLastD p) l2 →
    Adm p (l1 ++ l2) := by
  intro p l1 l2 h1
  induction h1 with
  | nil =>
    intro h2
    simpa using h2
  | cons h2 hle ha ih =>
    intro hl2
    rw [List.cons_append]
    refine Adm.cons h2 hle (ih ?_)
    rw [List.getLastD_cons] at hl2
    exact hl2

mutual
theorem visitsFrom_lastD_ge (d p : Nat) : ∀ t : SNode, d ≤ (dep (visitsFrom d t)).getLastD p
  | .mk name cs => by
    rw [visitsFrom]
    rw [show dep (⟨name, d⟩ :: visitsForest (d + 1) cs) = d :: dep (visitsForest (d + 1) cs)
      from rfl]
    rw [List.getLastD_cons]
    have h := visitsForest_lastD_ge (d + 1) d cs
    omega
theorem visitsForest_lastD_ge (d p : Nat) : ∀ cs : List SNode,
    min d p ≤ (dep (visitsForest d cs)).getLastD p
  | [] => by
    show min d p ≤ ([] : List Nat).getLastD p
    simp [Nat.min_le_right]
  | c :: rest => by
    rw [visitsForest]
    rw [show dep (visitsFrom d c ++ visitsForest d rest)
      = dep (visitsFrom d c) ++ dep (visitsForest d rest) from List.map_append _ _ _]
    rw [getLastD_append_nat]
    have h1 : d ≤ (dep (visitsFrom d c)).getLastD p := visitsFrom_lastD_ge d p c
    have h2 := visitsForest_lastD_ge d ((dep (visitsFrom d c)).getLastD p) rest
    have h3 : min d ((dep (visitsFrom d c)).getLastD p) = d := Nat.min_eq_left h1
    omega
end

mutual
theorem visitsFrom_adm (d p : Nat) (h2 : 2 ≤ d) (hle : d ≤ p + 1) :
    ∀ t : SNode, Adm p (dep (visitsFrom d t))
  | .mk name cs => by
    rw [visitsFrom]
    rw [show dep (⟨name, d⟩ :: visitsForest (d + 1) cs) = d :: dep (visitsForest (d + 1) cs)
      from rfl]
    exact Adm.cons h2 hle (visitsForest_adm (d + 1) d (by omega) (by omega) cs)
theorem visitsForest_adm (d p : Nat) (h2 : 2 ≤ d) (hle : d ≤ p + 1) :
    ∀ cs : List SNode, Adm p (dep (visitsForest d cs))
  | [] => Adm.nil
  | c :: rest => by
    rw [visitsForest]
    rw [show dep (visitsFrom d c ++ visitsForest d rest)
      = dep (visitsFrom d c) ++ dep (visitsForest d rest) from List.map_append _ _ _]
    apply adm_append (visitsFrom_adm d p h2 hle c)
    have hging : d ≤ (dep (visitsFrom d c)).getLastD p := visitsFrom_lastD_ge d p c
    exact visitsForest_adm d _ h2 (by omega) rest
end

theorem dep_forest_ge (cs : List SNode) : ∀ x ∈ dep (visitsForest 2 cs), 2 ≤ x := by
  intro x hx
  obtain ⟨v, hv, rfl⟩ := List.mem_map.mp hx
  exact visitsForest_depth_ge 2 cs v hv

/-! ## Bridging records to the structured address trace -/

theorem pairAt_eq_some (bk : BK) (d : Nat) (h : 2 ≤ d) :
    pairAt bk d = some (pairAtS bk d) := by
  by_cases hd2 : d = 2
  · subst hd2
    rfl
  · have hne : (d == 2) = false := beq_eq_false_iff_ne.mpr hd2
    have h3 : (2 < d) = True := eq_true (by omega)
    rw [pairAt, pairAtS, hne]
    simp [h3]

theorem bkPairs_eq_map_some : ∀ (ds : List Nat) (bk : BK), (∀ d ∈ ds, 2 ≤ d) →
    bkPairs bk ds = (bkPairsS bk ds).map some := by
  intro ds
  induction ds with
  | nil => intro bk _; rfl
  | cons d0 rest ih =>
    intro bk hall
    rw [bkPairs, bkPairsS, List.map_cons]
    rw [pairAt_eq_some _ _ (hall d0 (List.mem_cons_self _ _))]
    rw [ih (bkStep bk d0) (fun x hx => hall x (List.mem_cons_of_mem _ hx))]

theorem mapStep_shallow (st : MapState) (v : Visit) (hd : v.depth ≤ 1) :
    mapStep st v = (st, ⟨v.name, none⟩) := by
  obtain ⟨pn, ld, cd, cc, un, rn⟩ := st
  have h1 : decide (1 < v.depth) = false := by
    simp only [decide_eq_false_iff_not]
    omega
  have h2 : (v.depth == 2) = false := beq_eq_false_iff_ne.mpr (by omega)
  have h3 : ¬(2 < v.depth) := by omega
  simp [mapStep, dedupStep, bkStep, pairAt, MapState.bk, h1, h2, h3]

theorem generate_unfold (name : Option String) (cs : List SNode) :
    (generate (SNode.mk name cs)).2
      = Record.mk name none :: (runSteps initState (visitsForest 2 cs)).2 := by
  rw [generate]
  rw [show visits (SNode.mk name cs) = ⟨name, 1⟩ :: visitsForest 2 cs from rfl]
  rw [runSteps]
  rw [mapStep_shallow initState ⟨name, 1⟩ (by exact Nat.le_refl 1)]

theorem invBK_init : InvBK initState.bk 1 := by
  refine ⟨rfl, rfl, ?_, ?_⟩
  · show (-1 : Int) ≤ -1
    omega
  · intro h
    omega

theorem filterMap_some_map {α β : Type} (f : α → β) : ∀ l : List α,
    (l.map some).filterMap (Option.map f) = l.map f := by
  intro l
  induction l with
  | nil => rfl
  | cons x xs ih => simp [ih]

/-! ## Claim C7: vector length matches depth -/

/-- **C7** (confirmed).  For every visit of a node at depth d > 2 in the
traversal of any scene tree (consecutive visited depths increase by at
most one, which holds for `depth_iter`), the bookkeeping update leaves
the sibling-count vector with exactly d − 2 entries, so the emitted
address — `node_maker` of the component and this vector — consists of
the component index followed by exactly d − 2 pipe-separated counters. -/
theorem C7_vector_length (t : SNode) (i : Nat) (v : Visit) (r : Record)
    (hv : (visits t)[i]? = some v) (hr : ((generate t).2)[i]? = some r)
    (hd : 2 < v.depth) :
    ∃ c l, r.pair = some (c, some l) ∧ l.length + 2 = v.depth := by
  obtain ⟨name, cs⟩ := t
  rw [show visits (SNode.mk name cs) = ⟨name, 1⟩ :: visitsForest 2 cs from rfl] at hv
  rw [generate_unfold name cs] at hr
  cases i with
  | zero =>
    rw [List.getElem?_cons_zero, Option.some.injEq] at hv
    obtain rfl := hv
    simp at hd
  | succ j =>
    rw [List.getElem?_cons_succ] at hv hr
    have hdep : (dep (visitsForest 2 cs))[j]? = some v.depth := by
      rw [dep, List.getElem?_map, hv]
      rfl
    have hadm : Adm 1 (dep (visitsForest 2 cs)) :=
      visitsForest_adm 2 1 (by omega) (by omega) cs
    obtain ⟨_, _, hpos⟩ := bk_master (dep (visitsForest 2 cs)) initState.bk 1 hadm invBK_init
    obtain ⟨c, l, hl, hlen⟩ := hpos j v.depth hdep hd
    have hrp : ((runSteps initState (visitsForest 2 cs)).2.map Record.pair)[j]?
        = some r.pair := by
      rw [List.getElem?_map, hr]
      rfl
    rw [runSteps_pairs, bkPairs_eq_map_some _ _ (dep_forest_ge cs), List.getElem?_map, hl]
      at hrp
    refine ⟨c, l, ?_, hlen⟩
    have hrp2 : some (some (c, some l)) = some r.pair := hrp
    rw [Option.some.injEq] at hrp2
    exact hrp2.symm

theorem C7_vector_length_witness :
    ∃ c l, (Record.mk (some "B") (some ((0 : Int), some [0, 0]))).pair = some (c, some l)
      ∧ l.length + 2 = 4 :=
  C7_vector_length (chainTree none (some "comp") (some "A") (some "B") (some "C")) 3
    ⟨some "B", 4⟩ ⟨some "B", some ((0 : Int), some [0, 0])⟩ (by decide) (by decide)
    (by decide)

/-! ## Claim C5: uniqueness and determinism of addresses -/

/-- **C5** (confirmed).  Within one traversal of any scene tree the
address strings produced for the addressed visits are pairwise distinct;
and the addresses depend only on the depth sequence of the traversal, so
traversing the same tree again — even after the deduplication pass
renamed some nodes — yields the same address for the same node. -/
theorem C5_unique_deterministic (t : SNode) :
    ((generate t).2.filterMap (fun r => r.pair.map encodePair)).Nodup
    ∧ (∀ vs1 vs2 : List Visit, vs1.map Visit.depth = vs2.map Visit.depth →
        (runSteps initState vs1).2.map (fun r => r.pair.map encodePair)
          = (runSteps initState vs2).2.map (fun r => r.pair.map encodePair)) := by
  constructor
  · obtain ⟨name, cs⟩ := t
    rw [generate_unfold name cs]
    rw [show (Record.mk name none :: (runSteps initState (visitsForest 2 cs)).2).filterMap
          (fun r => r.pair.map encodePair)
        = (runSteps initState (visitsForest 2 cs)).2.filterMap
          (fun r => r.pair.map encodePair) from rfl]
    have hadm : Adm 1 (dep (visitsForest 2 cs)) :=
      visitsForest_adm 2 1 (by omega) (by omega) cs
    obtain ⟨hch, hwf, _⟩ := bk_master (dep (visitsForest 2 cs)) initState.bk 1 hadm invBK_init
    have haddr : (runSteps initState (visitsForest 2 cs)).2.filterMap
          (fun r => r.pair.map encodePair)
        = (bkPairsS initState.bk (dep (visitsForest 2 cs))).map encodePair := by
      have h1 : (runSteps initState (visitsForest 2 cs)).2.filterMap
            (fun r => r.pair.map encodePair)
          = ((runSteps initState (visitsForest 2 cs)).2.map Record.pair).filterMap
              (Option.map encodePair) := by
        rw [List.filterMap_map]
        rfl
      rw [h1, runSteps_pairs, bkPairs_eq_map_some _ _ (dep_forest_ge cs), filterMap_some_map]
    rw [haddr]
    have hpw : List.Pairwise pairLt
        (prevPair initState.bk :: bkPairsS initState.bk (dep (visitsForest 2 cs))) :=
      (@List.chain'_iff_pairwise _ pairLt ⟨fun a b c => pairLt_trans⟩ _).mp hch
    have hpw2 : List.Pairwise pairLt (bkPairsS initState.bk (dep (visitsForest 2 cs))) :=
      List.Pairwise.of_cons hpw
    have hnd : (bkPairsS initState.bk (dep (visitsForest 2 cs))).Nodup := by
      refine hpw2.imp ?_
      intro a b hab heq
      subst heq
      exact pairLt_irrefl a hab
    exact List.Nodup.map_on
      (fun x hx y hy he => encodePair_inj x y (hwf x hx) (hwf y hy) he) hnd
  · intro vs1 vs2 hdep
    have heq : bkPairs initState.bk (dep vs1) = bkPairs initState.bk (dep vs2) := by
      rw [dep, dep, hdep]
    calc (runSteps initState vs1).2.map (fun r => r.pair.map encodePair)
        = ((runSteps initState vs1).2.map Record.pair).map (Option.map encodePair) := by
          rw [List.map_map]
          rfl
      _ = ((runSteps initState vs2).2.map Record.pair).map (Option.map encodePair) := by
          rw [runSteps_pairs, runSteps_pairs, heq]
      _ = (runSteps initState vs2).2.map (fun r => r.pair.map encodePair) := by
          rw [List.map_map]
          rfl

theorem C5_unique_deterministic_witness :
    ((generate oneChildTree).2.filterMap (fun r => r.pair.map encodePair)).Nodup
    ∧ (runSteps initState [⟨some "x", 2⟩]).2.map (fun r => r.pair.map encodePair)
        = (runSteps initState [⟨some "y", 2⟩]).2.map (fun r => r.pair.map encodePair) :=
  ⟨(C5_unique_deterministic oneChildTree).1,
   (C5_unique_deterministic oneChildTree).2 [⟨some "x", 2⟩] [⟨some "y", 2⟩] rfl⟩

/-! ## Claim C6: component indexing of depth-2 nodes -/

theorem map_ext_on {α β : Type} (l : List α) (f g : α → β)
    (h : ∀ a ∈ l, f a = g a) : l.map f = l.map g := by
  induction l with
  | nil => rfl
  | cons a l ih =>
    simp only [List.map_cons]
    rw [h a (by simp), ih (fun a ha => h a (by simp [ha]))]

/- The structured addresses emitted at the depth-2 visits, in traversal
order, are `(c+1, none), (c+2, none), ...` starting from the component
counter `c` held in the incoming state. -/
theorem zip_filter_two_pairs (vs : List Visit) : ∀ st : MapState,
    ((vs.zip (runSteps st vs).2).filter (fun p => p.1.depth == 2)).map
        (fun p => p.2.pair)
      = (List.range (vs.countP (fun v => v.depth == 2))).map
          (fun n : Nat => some (st.bk.current_component + 1 + (n : Int), none)) := by
  induction vs with
  | nil => intro st; rfl
  | cons v vs ih =>
    intro st
    rw [show runSteps st (v :: vs)
        = ((runSteps (mapStep st v).1 vs).1,
           (mapStep st v).2 :: (runSteps (mapStep st v).1 vs).2) from rfl]
    rw [show (v :: vs).zip ((mapStep st v).2 :: (runSteps (mapStep st v).1 vs).2)
        = (v, (mapStep st v).2) :: vs.zip (runSteps (mapStep st v).1 vs).2 from rfl]
    by_cases hd : v.depth = 2
    · rw [List.filter_cons_of_pos (by simp [hd]), List.map_cons]
      have hcnt : (v :: vs).countP (fun v => v.depth == 2)
          = vs.countP (fun v => v.depth == 2) + 1 := by
        rw [List.countP_cons]
        simp [hd]
      rw [hcnt, List.range_succ_eq_map, List.map_cons]
      have hc : (mapStep st v).1.bk.current_component = st.bk.current_component + 1 := by
        rw [mapStep_fst_bk, hd, bkStep_two]
      congr 1
      · rw [mapStep_snd_pair, hd, bkStep_two]
        show some (st.bk.current_component + 1, (none : Option (List Nat)))
          = some (st.bk.current_component + 1 + ((0 : Nat) : Int), none)
        simp
      · rw [ih (mapStep st v).1, List.map_map]
        apply map_ext_on
        intro n _
        show some ((mapStep st v).1.bk.current_component + 1 + (n : Int),
            (none : Option (List Nat)))
          = some (st.bk.current_component + 1 + ((n + 1 : Nat) : Int), none)
        rw [hc]
        have harith : st.bk.current_component + 1 + 1 + (n : Int)
            = st.bk.current_component + 1 + ((n + 1 : Nat) : Int) := by
          push_cast
          ring
        rw [harith]
    · rw [List.filter_cons_of_neg (by simp [hd])]
      have hcnt : (v :: vs).countP (fun v => v.depth == 2)
          = vs.countP (fun v => v.depth == 2) := by
        rw [List.countP_cons]
        simp [hd]
      rw [hcnt, ih (mapStep st v).1]
      apply map_ext_on
      intro n _
      have hc : (mapStep st v).1.bk.current_component = st.bk.current_component := by
        rw [mapStep_fst_bk]
        exact bkStep_comp_ne_two st.bk v.depth hd
      show some ((mapStep st v).1.bk.current_component + 1 + (n : Int),
          (none : Option (List Nat)))
        = some (st.bk.current_component + 1 + (n : Int), none)
      rw [hc]

/-- **C6** (confirmed).  For every scene tree, the Nth (0-based) depth-2
node in traversal order receives exactly the address `node_maker N none`
= `"N>"` (so the first one gets `"0>"`): the component counter starts at
-1 in the initial state, each depth-2 visit increments it and resets the
sibling-count vector to empty (and zeroes the remembered level). -/
theorem C6_component_indexing (t : SNode) :
    (((visits t).zip (generate t).2).filter (fun p => p.1.depth == 2)).map
        (fun p => p.2.pair.map encodePair)
      = (List.range t.children.length).map (fun n : Nat => some (node_maker (n : Int) none))
    ∧ (∀ bk : BK, bkStep bk 2 =
        { current_component := bk.current_component + 1, count_depth := [],
          last_depth := 0 })
    ∧ initState.current_component = -1 := by
  refine ⟨?_, fun bk => bkStep_two bk, rfl⟩
  have hcount : (visits t).countP (fun v => v.depth == 2) = t.children.length := by
    rw [List.countP_eq_length_filter, visits_filter_two, List.length_map]
  have h1 : (((visits t).zip (generate t).2).filter (fun p => p.1.depth == 2)).map
        (fun p => p.2.pair.map encodePair)
      = ((((visits t).zip (generate t).2).filter (fun p => p.1.depth == 2)).map
          (fun p => p.2.pair)).map (Option.map encodePair) := by
    rw [List.map_map]
    rfl
  rw [h1, show (generate t).2 = (runSteps initState (visits t)).2 from rfl,
    zip_filter_two_pairs (visits t) initState, hcount, List.map_map]
  apply map_ext_on
  intro n _
  show Option.map encodePair (some (initState.bk.current_component + 1 + (n : Int), none))
    = some (node_maker (n : Int) none)
  have hn : initState.bk.current_component + 1 + (n : Int) = (n : Int) := by
    show (-1 : Int) + 1 + (n : Int) = (n : Int)
    omega
  rw [hn]
  rfl

end I3d
